import Mathlib

/-!
Verification of the span-reconciliation and reversible-substitution engine of
`src/privacy_guard.py` (class `PrivacyGuard`), shallowly embedded in Lean.

Python text is a sequence of code points, modelled as `List Char`.  The
detectors themselves (the regex engine and the NER model) are external
collaborators; they enter the embedding as abstract match functions, while
everything the repository's own code does with their output (span collection
order, sorting, reconciliation, placeholder allocation, substitution and
restoration) is translated directly from the source.
-/

namespace PrivacyGuard

/-- Text and strings are lists of characters (Python `str`). -/
abbrev Str := List Char

/-- Python slice `t[a:b]` for nonnegative `a`, `b`: out-of-range bounds clip,
and `a ≥ b` yields the empty string. -/
def pySlice (t : Str) (a b : Nat) : Str := (t.take b).drop a

/-- Python slice `t[a:]` for nonnegative `a`. -/
def pyDrop (t : Str) (a : Nat) : Str := t.drop a

/-- A detector span, the tuple `(start, end, label, content)` built in
`detect_pii_regex` / `detect_pii_ner` (`end` is spelled `stop`). -/
structure Span where
  start : Nat
  stop : Nat
  label : Str
  content : Str
deriving DecidableEq, Repr

/-- Insert a span before the first element whose start is not smaller.
Together with `sortSpans` this realises Python's stable
`sorted(regex_matches + ner_matches, key=lambda x: x[0])` (line 135):
spans with equal starts keep their input order. -/
def insertSpan (s : Span) : List Span → List Span
  | [] => [s]
  | t :: ts => if t.start < s.start then t :: insertSpan s ts else s :: t :: ts

/-- Stable sort of all matches by start offset (line 135). -/
def sortSpans (l : List Span) : List Span := l.foldr insertSpan []

/-- The reconciliation scan of `anonymize` (lines 139–144): walking the sorted
spans, accept a span iff `start >= last_end` and then set `last_end` to its
end; `last_end` starts at `-1`. -/
def reconcileAux (lastEnd : Int) : List Span → List Span
  | [] => []
  | s :: ss =>
    if lastEnd ≤ (s.start : Int) then s :: reconcileAux (s.stop : Int) ss
    else reconcileAux lastEnd ss

/-- The accepted span sequence (`filtered_matches` of lines 139–144). -/
def filtered_matches (allMatches : List Span) : List Span :=
  reconcileAux (-1) (sortSpans allMatches)

/-- One decimal digit character. -/
def digitChar : Nat → Char
  | 0 => '0' | 1 => '1' | 2 => '2' | 3 => '3' | 4 => '4'
  | 5 => '5' | 6 => '6' | 7 => '7' | 8 => '8' | _ => '9'

/-- Fuelled decimal printer (the fuel only makes the recursion structural;
it is always at least `n + 1` at the top call). -/
def natDigitsAux : Nat → Nat → Str
  | 0, _ => []
  | fuel + 1, n =>
    if n < 10 then [digitChar n]
    else natDigitsAux fuel (n / 10) ++ [digitChar (n % 10)]

/-- Decimal digits of `n`, as produced by Python's f-string formatting. -/
def natDigits (n : Nat) : Str := natDigitsAux (n + 1) n

/-- The placeholder `f"<{label}_{counts[label]}>"` (line 162). -/
def mkPlaceholder (label : Str) (n : Nat) : Str :=
  '<' :: label ++ '_' :: natDigits n ++ ['>']

/-- The placeholder/substitution loop of `anonymize` (lines 147–175), run on
the accepted spans: returns `sanitized_parts` and `mapping_table`.  `counts`
is the per-label counter dictionary (entries default to 0 before their first
increment), `cur` is `current_idx`; after the loop the remaining tail
`text[current_idx:]` is appended. -/
def sanitizeLoop (text : Str) :
    List Span → (Str → Nat) → Nat → List Str × List (Str × Str)
  | [], _, cur => ([pyDrop text cur], [])
  | s :: ss, counts, cur =>
    let n := counts s.label + 1
    let ph := mkPlaceholder s.label n
    let rest := sanitizeLoop text ss (fun l => if l = s.label then n else counts l) s.stop
    (pySlice text cur s.start :: ph :: rest.1, (ph, s.content) :: rest.2)

/-- Embedding of `anonymize` (lines 117–177), taking the two detector result lists as
arguments: returns the sanitized text (the joined parts) and the restoration
table (an insertion-ordered association list; its keys are pairwise distinct,
see `pendOf_keys_nodup`, so it is a faithful model of the Python dict). -/
def anonymize (text : Str) (regexMatches nerMatches : List Span) :
    Str × List (Str × Str) :=
  let fs := filtered_matches (regexMatches ++ nerMatches)
  let r := sanitizeLoop text fs (fun _ => 0) 0
  (r.1.flatten, r.2)

/-- One pass of Python `str.replace` with explicit fuel (the fuel, always at
least the text length at the top call, only makes the recursion structural):
scan left to right, replace each leftmost occurrence of `pat` and continue
after the replacement; an empty `pat` matches at every position. -/
def replaceGo : Nat → Str → Str → Str → Str
  | 0, t, _, _ => t
  | _ + 1, [], pat, rep => if pat = [] then rep else []
  | fuel + 1, c :: ts, pat, rep =>
    if pat = [] then rep ++ c :: replaceGo fuel ts pat rep
    else if pat.isPrefixOf (c :: ts) then
      rep ++ replaceGo fuel ((c :: ts).drop pat.length) pat rep
    else c :: replaceGo fuel ts pat rep

/-- Python `t.replace(pat, rep)`: replace every leftmost, non-overlapping
occurrence of `pat` in `t` by `rep`. -/
def replacePy (t pat rep : Str) : Str := replaceGo (t.length + 1) t pat rep

/-- Stable insertion realising `sorted(mapping_table.keys(), key=len,
reverse=True)` (line 193): descending length, ties keep input order. -/
def insertKey (s : Str) : List Str → List Str
  | [] => [s]
  | t :: ts => if s.length < t.length then t :: insertKey s ts else s :: t :: ts

/-- The sorted key list of `restore` (line 193). -/
def sortKeysDesc (l : List Str) : List Str := l.foldr insertKey []

/-- Embedding of `restore` (lines 179–196): fold Python `str.replace` over the keys in
descending length order; `List.lookup` is the dict access
`mapping_table[placeholder]`. -/
def restore (sanitized : Str) (table : List (Str × Str)) : Str :=
  (sortKeysDesc (table.map Prod.fst)).foldl
    (fun acc ph => replacePy acc ph ((List.lookup ph table).getD [])) sanitized

/-- Label strings of the regex pattern dictionary (lines 67–74). -/
def emailLabel : Str := "EMAIL".data

/-- Label of the phone pattern (line 71). -/
def phoneLabel : Str := "PHONE".data

/-- Label of the IBAN pattern (line 73). -/
def ibanLabel : Str := "IBAN".data

/-- An abstract regex engine for one compiled pattern: the `finditer`
start/end offset pairs on a given text (the pattern set itself is an external
collaborator, out of scope per the spec). -/
abbrev Matcher := Str → List (Nat × Nat)

/-- The pattern dictionary built by `_compile_regex_patterns` (lines 67–74),
keeping its insertion order EMAIL, PHONE, IBAN. -/
def regex_patterns (emailPat phonePat ibanPat : Matcher) : List (Str × Matcher) :=
  [(emailLabel, emailPat), (phoneLabel, phonePat), (ibanLabel, ibanPat)]

/-- Embedding of `detect_pii_regex` (lines 76–90): for each pattern in dictionary order
append one span per match; `content` is `match.group()`, the matched slice of
the input text. -/
def detect_pii_regex (patterns : List (Str × Matcher)) (text : Str) : List Span :=
  (patterns.map fun lp => (lp.2 text).map fun m =>
    Span.mk m.1 m.2 lp.1 (pySlice text m.1 m.2)).flatten

/-- An abstract NER model: a list of entities `(start, end, entity_group)`. -/
abbrev NerModel := Str → List (Nat × Nat × Str)

/-- Embedding of `detect_pii_ner` (lines 92–115): `content` is re-sliced from the input
text (line 113), the label is the entity group. -/
def detect_pii_ner (model : NerModel) (text : Str) : List Span :=
  (model text).map fun e => Span.mk e.1 e.2.1 e.2.2 (pySlice text e.1 e.2.1)

/-- Predicate: `pat` occurs as a contiguous substring of `t`. -/
def occursIn (pat t : Str) : Prop := ∃ x y, t = x ++ pat ++ y

/-- Boolean substring test matching `occursIn`. -/
def occursInB (pat : Str) : Str → Bool
  | [] => pat.isEmpty
  | c :: ts => pat.isPrefixOf (c :: ts) || occursInB pat ts

/-- Number of spans in `l` carrying label `lab`. -/
def countLabel (lab : Str) (l : List Span) : Nat :=
  (l.filter fun s => decide (s.label = lab)).length

/-- A placeholder-shaped string: `<`, then a middle part free of `<` and `>`,
then `>`. -/
def shapedStr (p : Str) : Prop :=
  ∃ mid, p = '<' :: mid ++ ['>'] ∧ '<' ∉ mid ∧ '>' ∉ mid

/-- Pending-placeholder decomposition of a partially restored text: an
alternation of original-text slices and placeholder strings, each pending
entry `(p, s, e)` standing for placeholder `p` covering `text[s:e]`. -/
def seg (text : Str) : List (Str × Nat × Nat) → Nat → Str
  | [], cur => pyDrop text cur
  | (p, s, e) :: rest, cur => pySlice text cur s ++ p ++ seg text rest e

/-- Monotone, well-nested positions of a pending decomposition. -/
def posOk : Nat → List (Str × Nat × Nat) → Prop
  | _, [] => True
  | cur, (_, s, e) :: rest => cur ≤ s ∧ s ≤ e ∧ posOk e rest

/-- The chained acceptance property of the reconciliation scan. -/
def chainR : Int → List Span → Prop
  | _, [] => True
  | le, s :: ss => le ≤ (s.start : Int) ∧ chainR (s.stop : Int) ss

/-- The pending decomposition corresponding to the substitution loop. -/
def pendOf : List Span → (Str → Nat) → List (Str × Nat × Nat)
  | [], _ => []
  | s :: ss, counts =>
    let n := counts s.label + 1
    (mkPlaceholder s.label n, s.start, s.stop) ::
      pendOf ss (fun l => if l = s.label then n else counts l)

/-- Nat-level chained acceptance property. -/
def chainNat : Nat → List Span → Prop
  | _, [] => True
  | cur, s :: ss => cur ≤ s.start ∧ chainNat s.stop ss

/-- The canonical prefix of `seg` up to (but excluding) a pending entry that
covers `text[s:_]`. -/
def segSplitX (text : Str) (s : Nat) : List (Str × Nat × Nat) → Nat → Str
  | [], cur => pySlice text cur s
  | (p, s', e') :: rest, cur => pySlice text cur s' ++ p ++ segSplitX text s rest e'

/-! ### Basic facts about slices and substring occurrence -/

theorem pySlice_append_pyDrop (t : Str) {a b : Nat} (hab : a ≤ b) :
    pySlice t a b ++ pyDrop t b = pyDrop t a := by
  have hb : a + (b - a) = b := by omega
  unfold pySlice pyDrop
  conv_rhs => rw [← List.take_append_drop (b - a) (t.drop a)]
  rw [List.take_drop, hb, List.drop_drop, hb]

theorem pySlice_concat (t : Str) {a b c : Nat} (hab : a ≤ b) (hbc : b ≤ c) :
    pySlice t a b ++ pySlice t b c = pySlice t a c := by
  have h := pySlice_append_pyDrop (t.take c) (a := a) (b := b) hab
  simp only [pySlice, pyDrop] at h ⊢
  rwa [List.take_take, min_eq_left hbc] at h

theorem occursIn_iff (pat t : Str) : occursIn pat t ↔ occursInB pat t = true := by
  induction t with
  | nil =>
    simp only [occursInB, List.isEmpty_iff]
    constructor
    · rintro ⟨x, y, h⟩
      have h1 := List.append_eq_nil.mp h.symm
      exact (List.append_eq_nil.mp h1.1).2
    · rintro rfl; exact ⟨[], [], rfl⟩
  | cons c ts ih =>
    simp only [occursInB, Bool.or_eq_true, List.isPrefixOf_iff_prefix]
    constructor
    · rintro ⟨x, y, h⟩
      cases x with
      | nil =>
        left
        exact ⟨y, by simpa using h.symm⟩
      | cons d x' =>
        right
        rw [← ih]
        have h' : c :: ts = d :: (x' ++ pat ++ y) := by simpa using h
        exact ⟨x', y, (List.cons.injEq _ _ _ _ ▸ h').2⟩
    · rintro (⟨z, hz⟩ | hrec)
      · exact ⟨[], z, by simp [← hz]⟩
      · obtain ⟨x, y, h⟩ := ih.mpr hrec
        exact ⟨c :: x, y, by simp [h]⟩

instance (pat t : Str) : Decidable (occursIn pat t) :=
  decidable_of_iff _ (occursIn_iff pat t).symm

/-- Substring occurrence is preserved by embedding into a larger string. -/
theorem occursIn_of_sub {p u t : Str} (h : occursIn p u)
    (hsub : ∃ a b, t = a ++ u ++ b) : occursIn p t := by
  obtain ⟨x, y, hu⟩ := h
  obtain ⟨a, b, ht⟩ := hsub
  exact ⟨a ++ x, y ++ b, by simp [ht, hu, List.append_assoc]⟩

theorem pySlice_sub (t : Str) (i j : Nat) : ∃ a b, t = a ++ pySlice t i j ++ b := by
  refine ⟨(t.take j).take i, t.drop j, ?_⟩
  unfold pySlice
  conv_lhs => rw [← List.take_append_drop j t, ← List.take_append_drop i (t.take j)]

theorem pyDrop_sub (t : Str) (i : Nat) : ∃ a b, t = a ++ pyDrop t i ++ b := by
  refine ⟨t.take i, [], ?_⟩
  unfold pyDrop
  rw [List.append_nil, List.take_append_drop]

/-! ### Behaviour of Python `str.replace` -/

theorem replaceGo_congr (pat rep : Str) :
    ∀ f1 f2 t, t.length < f1 → t.length < f2 →
      replaceGo f1 t pat rep = replaceGo f2 t pat rep := by
  intro f1
  induction f1 with
  | zero => intro f2 t h1 _; exact absurd h1 (Nat.not_lt_zero _)
  | succ f ih =>
    intro f2 t h1 h2
    cases f2 with
    | zero => exact absurd h2 (Nat.not_lt_zero _)
    | succ g =>
      cases t with
      | nil => rfl
      | cons c ts =>
        simp only [replaceGo]
        by_cases hp : pat = []
        · simp only [if_pos hp]
          have hts1 : ts.length < f := by simp at h1; omega
          have hts2 : ts.length < g := by simp at h2; omega
          rw [ih g ts hts1 hts2]
        · simp only [if_neg hp]
          have hpl : 1 ≤ pat.length := by
            have := List.length_pos.mpr hp
            omega
          by_cases hpre : pat.isPrefixOf (c :: ts) = true
          · simp only [if_pos hpre]
            have hd1 : ((c :: ts).drop pat.length).length < f := by
              simp [List.length_drop] at h1 ⊢; omega
            have hd2 : ((c :: ts).drop pat.length).length < g := by
              simp [List.length_drop] at h2 ⊢; omega
            rw [ih g _ hd1 hd2]
          · simp only [if_neg hpre]
            have hts1 : ts.length < f := by simp at h1; omega
            have hts2 : ts.length < g := by simp at h2; omega
            rw [ih g ts hts1 hts2]

theorem replaceGo_of_not_occursIn {pat : Str} (hne : pat ≠ []) (rep : Str) :
    ∀ f t, t.length < f → ¬ occursIn pat t → replaceGo f t pat rep = t := by
  intro f
  induction f with
  | zero => intro t h _; exact absurd h (Nat.not_lt_zero _)
  | succ f ih =>
    intro t h hocc
    cases t with
    | nil => simp [replaceGo, hne]
    | cons c ts =>
      simp only [replaceGo, if_neg hne]
      have hpre : pat.isPrefixOf (c :: ts) = false := by
        cases hpre : pat.isPrefixOf (c :: ts) with
        | true =>
          obtain ⟨z, hz⟩ := List.isPrefixOf_iff_prefix.mp hpre
          exact absurd ⟨[], z, by simp [← hz]⟩ hocc
        | false => rfl
      simp only [hpre, Bool.false_eq_true, if_false]
      have hts : ¬ occursIn pat ts := by
        rintro ⟨x, y, hx⟩
        exact hocc ⟨c :: x, y, by simp [hx]⟩
      rw [ih ts (by simp at h; omega) hts]

/-- Python `t.replace(pat, rep)` is the identity when `pat` does not occur in `t`. -/
theorem replacePy_of_not_occursIn {pat : Str} (hne : pat ≠ []) (t rep : Str)
    (hocc : ¬ occursIn pat t) : replacePy t pat rep = t :=
  replaceGo_of_not_occursIn hne rep _ t (Nat.lt_succ_self _) hocc

/-- When `pat` occurs in `t = X ++ pat ++ Y` at exactly one position,
`t.replace(pat, rep)` replaces exactly that occurrence. -/
theorem replacePy_unique {pat : Str} (hne : pat ≠ []) (rep Y : Str) :
    ∀ X f, (X ++ pat ++ Y).length < f →
      (∀ X' Y', X ++ pat ++ Y = X' ++ pat ++ Y' → X' = X) →
      replaceGo f (X ++ pat ++ Y) pat rep = X ++ rep ++ Y := by
  intro X
  induction X with
  | nil =>
    intro f hf huniq
    cases f with
    | zero => exact absurd hf (Nat.not_lt_zero _)
    | succ f' =>
      obtain ⟨p, ps, rfl⟩ : ∃ p ps, pat = p :: ps := by
        cases pat with
        | nil => exact absurd rfl hne
        | cons a b => exact ⟨a, b, rfl⟩
      simp only [List.nil_append, List.cons_append, replaceGo, List.append_eq]
      have hpre : (p :: ps).isPrefixOf (p :: (ps ++ Y)) = true :=
        List.isPrefixOf_iff_prefix.mpr ⟨Y, by simp⟩
      rw [if_neg hne, if_pos hpre]
      have hdrop : (p :: (ps ++ Y)).drop (p :: ps).length = Y := by
        have h0 : (p :: (ps ++ Y)) = (p :: ps) ++ Y := by simp
        rw [h0, List.drop_left]
      rw [hdrop]
      have hYocc : ¬ occursIn (p :: ps) Y := by
        rintro ⟨A, B, hAB⟩
        have := huniq ((p :: ps) ++ A) B (by simp [hAB, List.append_assoc])
        simp at this
      have hYlen : Y.length < f' := by simp at hf; omega
      rw [replaceGo_of_not_occursIn hne rep f' Y hYlen hYocc]
  | cons c X' ih =>
    intro f hf huniq
    cases f with
    | zero => exact absurd hf (Nat.not_lt_zero _)
    | succ f' =>
      simp only [List.cons_append, replaceGo, List.append_eq, if_neg hne]
      have hpre : pat.isPrefixOf (c :: (X' ++ pat ++ Y)) = false := by
        cases hpre : pat.isPrefixOf (c :: (X' ++ pat ++ Y)) with
        | true =>
          obtain ⟨z, hz⟩ := List.isPrefixOf_iff_prefix.mp hpre
          have := huniq [] z (by simpa using hz.symm)
          simp at this
        | false => rfl
      simp only [hpre, Bool.false_eq_true, if_false]
      have huniq' : ∀ X'' Y'', X' ++ pat ++ Y = X'' ++ pat ++ Y'' → X'' = X' := by
        intro X'' Y'' h
        have := huniq (c :: X'') Y'' (by simp [h])
        simpa using this
      have hlen : (X' ++ pat ++ Y).length < f' := by simp at hf ⊢; omega
      rw [ih f' hlen huniq']

/-! ### The stable sort of spans -/

theorem insertSpan_perm (s : Span) (l : List Span) : (insertSpan s l).Perm (s :: l) := by
  induction l with
  | nil => exact List.Perm.refl _
  | cons t ts ih =>
    simp only [insertSpan]
    by_cases h : t.start < s.start
    · rw [if_pos h]
      exact (ih.cons t).trans (List.Perm.swap s t ts)
    · rw [if_neg h]

theorem sortSpans_perm (l : List Span) : (sortSpans l).Perm l := by
  induction l with
  | nil => exact List.Perm.refl _
  | cons s ss ih => exact (insertSpan_perm s (sortSpans ss)).trans (ih.cons s)

theorem insertSpan_sorted (s : Span) {l : List Span}
    (hl : l.Pairwise fun a b => a.start ≤ b.start) :
    (insertSpan s l).Pairwise fun a b => a.start ≤ b.start := by
  induction l with
  | nil => simp [insertSpan]
  | cons t ts ih =>
    simp only [insertSpan]
    rcases List.pairwise_cons.mp hl with ⟨ht, hts⟩
    by_cases h : t.start < s.start
    · rw [if_pos h]
      refine List.pairwise_cons.mpr ⟨?_, ih hts⟩
      intro b hb
      rcases List.mem_cons.mp ((insertSpan_perm s ts).mem_iff.mp hb) with rfl | hb'
      · omega
      · exact ht b hb'
    · rw [if_neg h]
      refine List.pairwise_cons.mpr ⟨?_, hl⟩
      intro b hb
      rcases List.mem_cons.mp hb with rfl | hb'
      · omega
      · have := ht b hb'
        omega

theorem sortSpans_sorted (l : List Span) :
    (sortSpans l).Pairwise fun a b => a.start ≤ b.start := by
  induction l with
  | nil => exact List.Pairwise.nil
  | cons s ss ih => exact insertSpan_sorted s ih

theorem insertSpan_filter (s : Span) (k : Nat) (l : List Span) :
    (insertSpan s l).filter (fun x => decide (x.start = k)) =
      (s :: l).filter (fun x => decide (x.start = k)) := by
  induction l with
  | nil => rfl
  | cons t ts ih =>
    simp only [insertSpan]
    by_cases h : t.start < s.start
    · rw [if_pos h]
      by_cases hs : s.start = k
      · have ht : ¬ t.start = k := by omega
        simp [List.filter_cons, ht, hs] at ih ⊢
        exact ih
      · by_cases ht : t.start = k <;> simp [List.filter_cons, ht, hs] at ih ⊢ <;> exact ih
    · rw [if_neg h]

/-- Stability of the span sort: the subsequence of spans with any fixed start
offset is exactly the corresponding subsequence of the input. -/
theorem sortSpans_filter (l : List Span) (k : Nat) :
    (sortSpans l).filter (fun x => decide (x.start = k)) =
      l.filter (fun x => decide (x.start = k)) := by
  induction l with
  | nil => rfl
  | cons s ss ih =>
    have h0 : sortSpans (s :: ss) = insertSpan s (sortSpans ss) := rfl
    rw [h0, insertSpan_filter]
    by_cases hs : s.start = k <;> simp [List.filter_cons, hs, ih]

/-! ### The reconciliation scan -/

theorem reconcileAux_sublist (le : Int) (l : List Span) :
    (reconcileAux le l).Sublist l := by
  induction l generalizing le with
  | nil => simp [reconcileAux]
  | cons s ss ih =>
    simp only [reconcileAux]
    by_cases h : le ≤ (s.start : Int)
    · rw [if_pos h]; exact (ih _).cons₂ s
    · rw [if_neg h]; exact (ih le).cons s

theorem reconcileAux_chainR (l : List Span) : ∀ le, chainR le (reconcileAux le l) := by
  induction l with
  | nil => intro le; trivial
  | cons s ss ih =>
    intro le
    simp only [reconcileAux]
    by_cases h : le ≤ (s.start : Int)
    · rw [if_pos h]; exact ⟨h, ih _⟩
    · rw [if_neg h]; exact ih le

theorem reconcileAux_start_ge :
    ∀ (l : List Span), (∀ s ∈ l, s.start < s.stop) →
      ∀ (le : Int) (b : Span), b ∈ reconcileAux le l → le ≤ (b.start : Int) := by
  intro l
  induction l with
  | nil => intro _ le b h; simp [reconcileAux] at h
  | cons s ss ih =>
    intro hwf le b hb
    have hwfs : s.start < s.stop := hwf s (List.mem_cons_self s ss)
    have hwf' : ∀ x ∈ ss, x.start < x.stop := fun x hx => hwf x (List.mem_cons_of_mem s hx)
    simp only [reconcileAux] at hb
    by_cases h : le ≤ (s.start : Int)
    · rw [if_pos h] at hb
      rcases List.mem_cons.mp hb with rfl | hb'
      · exact h
      · have h1 := ih hwf' s.stop b hb'
        have h2 : (s.start : Int) < (s.stop : Int) := by exact_mod_cast hwfs
        omega
    · rw [if_neg h] at hb
      exact ih hwf' le b hb

theorem reconcileAux_pairwise :
    ∀ (l : List Span), (∀ s ∈ l, s.start < s.stop) →
      ∀ le, (reconcileAux le l).Pairwise fun a b => a.stop ≤ b.start := by
  intro l
  induction l with
  | nil => intro _ le; simp [reconcileAux]
  | cons s ss ih =>
    intro hwf le
    have hwf' : ∀ x ∈ ss, x.start < x.stop := fun x hx => hwf x (List.mem_cons_of_mem s hx)
    simp only [reconcileAux]
    by_cases h : le ≤ (s.start : Int)
    · rw [if_pos h]
      refine List.pairwise_cons.mpr ⟨?_, ih hwf' s.stop⟩
      intro b hb
      have := reconcileAux_start_ge ss hwf' s.stop b hb
      exact_mod_cast this
    · rw [if_neg h]
      exact ih hwf' le

/-- The key exclusion invariant of the scan: once `last_end` has moved
strictly past `b.start`, and every remaining span starts no earlier than `b`,
the span `b` can never be accepted. -/
theorem reconcileAux_not_mem_of_lt {b : Span} :
    ∀ (l : List Span) (le : Int), (l.Pairwise fun x y => x.start ≤ y.start) →
      (∀ s ∈ l, b.start ≤ s.start) → (b.start : Int) < le →
      b ∉ reconcileAux le l := by
  intro l
  induction l with
  | nil => intro le _ _ _ h; simp [reconcileAux] at h
  | cons s ss ih =>
    intro le hsorted hge hlt hmem
    simp only [reconcileAux] at hmem
    by_cases h : le ≤ (s.start : Int)
    · rw [if_pos h] at hmem
      have hbs : b.start < s.start := by
        have : (b.start : Int) < (s.start : Int) := lt_of_lt_of_le hlt h
        exact_mod_cast this
      rcases List.mem_cons.mp hmem with rfl | hmem'
      · omega
      · by_cases h2 : (b.start : Int) < (s.stop : Int)
        · exact ih s.stop hsorted.of_cons
            (fun x hx => hge x (List.mem_cons_of_mem s hx)) h2 hmem'
        · have hbss : b ∈ ss := (reconcileAux_sublist _ _).subset hmem'
          have := (List.pairwise_cons.mp hsorted).1 b hbss
          omega
    · rw [if_neg h] at hmem
      exact ih le hsorted.of_cons (fun x hx => hge x (List.mem_cons_of_mem s hx)) hlt hmem

/-- In a start-sorted list, a span `b` that shares its start offset with a
nonempty span `a` appearing strictly earlier is never accepted by the scan
(regardless of the initial `last_end`). -/
theorem reconcileAux_tie_loss {a b : Span} (k : Nat) (hak : a.start = k)
    (hbk : b.start = k) (hwfa : a.start < a.stop) (hne : b ≠ a) :
    ∀ (S : List Span), (S.Pairwise fun x y => x.start ≤ y.start) →
      ∀ (A D : List Span), S.filter (fun x => decide (x.start = k)) = A ++ a :: D →
        b ∉ A → ∀ le, b ∉ reconcileAux le S := by
  intro S
  induction S with
  | nil =>
    intro _ A D hF _ le hmem
    have := congrArg List.length hF
    simp at this
    omega
  | cons s S' ih =>
    intro hsorted A D hF hbA le hmem
    have hSga : ∀ x ∈ S', s.start ≤ x.start := (List.pairwise_cons.mp hsorted).1
    by_cases hsk : s.start = k
    · rw [List.filter_cons_of_pos (by simp [hsk])] at hF
      cases A with
      | nil =>
        simp only [List.nil_append] at hF
        have hsa : s = a := (List.cons.injEq _ _ _ _ ▸ hF).1
        subst hsa
        simp only [reconcileAux] at hmem
        by_cases hacc : le ≤ (s.start : Int)
        · rw [if_pos hacc] at hmem
          rcases List.mem_cons.mp hmem with rfl | hmem'
          · exact hne rfl
          · refine reconcileAux_not_mem_of_lt S' (s.stop : Int) hsorted.of_cons ?_ ?_ hmem'
            · intro x hx
              have := hSga x hx
              omega
            · have : b.start < s.stop := by omega
              exact_mod_cast this
        · rw [if_neg hacc] at hmem
          refine reconcileAux_not_mem_of_lt S' le hsorted.of_cons ?_ ?_ hmem
          · intro x hx
            have := hSga x hx
            omega
          · have h1 : (s.start : Int) < le := by omega
            have h2 : b.start = s.start := by omega
            rw [h2]
            exact h1
      | cons a0 A' =>
        have hsa0 : s = a0 ∧ S'.filter (fun x => decide (x.start = k)) = A' ++ a :: D := by
          have h1 := (List.cons.injEq _ _ _ _ ▸ hF)
          exact ⟨h1.1, by simpa using h1.2⟩
        have hbs : b ≠ s := by
          intro hbeq
          exact hbA (by rw [hbeq, hsa0.1]; exact List.mem_cons_self a0 A')
        have hbA' : b ∉ A' := fun hx => hbA (List.mem_cons_of_mem a0 hx)
        simp only [reconcileAux] at hmem
        by_cases hacc : le ≤ (s.start : Int)
        · rw [if_pos hacc] at hmem
          rcases List.mem_cons.mp hmem with rfl | hmem'
          · exact hbs rfl
          · exact ih hsorted.of_cons A' D hsa0.2 hbA' s.stop hmem'
        · rw [if_neg hacc] at hmem
          exact ih hsorted.of_cons A' D hsa0.2 hbA' le hmem
    · rw [List.filter_cons_of_neg (by simp [hsk])] at hF
      have hbs : b ≠ s := by
        intro hbeq
        rw [hbeq] at hbk
        exact hsk hbk
      simp only [reconcileAux] at hmem
      by_cases hacc : le ≤ (s.start : Int)
      · rw [if_pos hacc] at hmem
        rcases List.mem_cons.mp hmem with rfl | hmem'
        · exact hbs rfl
        · exact ih hsorted.of_cons A D hF hbA s.stop hmem'
      · rw [if_neg hacc] at hmem
        exact ih hsorted.of_cons A D hF hbA le hmem

/-- Earlier-enumerated wins: if `a` and `b` share a start offset, `a` is
nonempty and is enumerated before `b`'s first occurrence, then `b` is not in
the accepted set. -/
theorem tie_loss_sorted {a b : Span} (hab : a.start = b.start)
    (hwfa : a.start < a.stop) (hne : b ≠ a) (l1 l2 l3 : List Span)
    (hb1 : b ∉ l1) :
    b ∉ reconcileAux (-1) (sortSpans (l1 ++ a :: l2 ++ b :: l3)) := by
  set k := a.start with hk
  set L := l1 ++ a :: l2 ++ b :: l3 with hL
  refine reconcileAux_tie_loss k rfl hab.symm hwfa hne (sortSpans L) (sortSpans_sorted L)
    (l1.filter (fun x => decide (x.start = k)))
    (l2.filter (fun x => decide (x.start = k)) ++
      b :: l3.filter (fun x => decide (x.start = k))) ?_ ?_ (-1)
  · rw [sortSpans_filter, hL]
    simp only [List.filter_append, List.filter_cons]
    rw [if_pos (by simp [hk]), if_pos (by simp [← hab, hk])]
    simp [List.append_assoc]
  · intro hmem
    exact hb1 (List.mem_filter.mp hmem).1

/-- First-occurrence decomposition of a list membership. -/
theorem mem_split_first {α : Type} [DecidableEq α] {x : α} :
    ∀ {l : List α}, x ∈ l → ∃ s t, l = s ++ x :: t ∧ x ∉ s := by
  intro l
  induction l with
  | nil => intro h; simp at h
  | cons y ys ih =>
    intro h
    by_cases hxy : x = y
    · subst hxy
      exact ⟨[], ys, by simp, by simp⟩
    · rcases List.mem_cons.mp h with h' | h'
      · exact absurd h' hxy
      · obtain ⟨s, t, hst, hxs⟩ := ih h'
        exact ⟨y :: s, t, by rw [hst]; rfl, by simp [hxs, Ne.symm hxy, hxy]⟩

/-! ### Decimal digits and placeholder strings -/

/-- Value of one decimal digit character. -/
def digitVal (c : Char) : Nat := c.toNat - 48

/-- Value of a decimal digit string. -/
def digitsVal (l : Str) : Nat := l.foldl (fun acc c => acc * 10 + digitVal c) 0

theorem natDigitsAux_congr : ∀ (f g n : Nat), n < f → n < g →
    natDigitsAux f n = natDigitsAux g n := by
  intro f
  induction f with
  | zero => intro g n h; exact absurd h (Nat.not_lt_zero _)
  | succ f ih =>
    intro g n hf hg
    cases g with
    | zero => exact absurd hg (Nat.not_lt_zero _)
    | succ g =>
      simp only [natDigitsAux]
      by_cases h : n < 10
      · rw [if_pos h, if_pos h]
      · rw [if_neg h, if_neg h]
        have hdiv : n / 10 < n := Nat.div_lt_self (by omega) (by omega)
        rw [ih g (n / 10) (by omega) (by omega)]

theorem natDigits_lt {n : Nat} (h : n < 10) : natDigits n = [digitChar n] := by
  unfold natDigits
  simp only [natDigitsAux]
  rw [if_pos h]

theorem natDigits_ge {n : Nat} (h : 10 ≤ n) :
    natDigits n = natDigits (n / 10) ++ [digitChar (n % 10)] := by
  conv_lhs => unfold natDigits
  simp only [natDigitsAux]
  rw [if_neg (by omega)]
  congr 1
  exact natDigitsAux_congr n (n / 10 + 1) (n / 10)
    (Nat.div_lt_self (by omega) (by omega)) (Nat.lt_succ_self _)

theorem digitVal_digitChar {d : Nat} (hd : d < 10) : digitVal (digitChar d) = d := by
  interval_cases d <;> decide

theorem digitsVal_append_singleton (A : Str) (c : Char) :
    digitsVal (A ++ [c]) = digitsVal A * 10 + digitVal c := by
  simp [digitsVal, List.foldl_append]

theorem digitsVal_natDigits (n : Nat) : digitsVal (natDigits n) = n := by
  induction n using Nat.strong_induction_on with
  | _ n ih =>
    by_cases h : n < 10
    · rw [natDigits_lt h]
      simp [digitsVal, digitVal_digitChar h]
    · have h10 : 10 ≤ n := le_of_not_lt h
      rw [natDigits_ge h10, digitsVal_append_singleton,
        ih (n / 10) (Nat.div_lt_self (by omega) (by omega)),
        digitVal_digitChar (Nat.mod_lt _ (by omega))]
      omega

theorem natDigits_injective {m n : Nat} (h : natDigits m = natDigits n) : m = n := by
  rw [← digitsVal_natDigits m, h, digitsVal_natDigits]

theorem digitChar_ne (d : Nat) :
    digitChar d ≠ '_' ∧ digitChar d ≠ '<' ∧ digitChar d ≠ '>' := by
  unfold digitChar
  split <;> exact ⟨by decide, by decide, by decide⟩

theorem natDigits_chars (n : Nat) :
    ∀ c ∈ natDigits n, c ≠ '_' ∧ c ≠ '<' ∧ c ≠ '>' := by
  induction n using Nat.strong_induction_on with
  | _ n ih =>
    intro c hc
    by_cases h : n < 10
    · rw [natDigits_lt h] at hc
      simp at hc
      rw [hc]
      exact digitChar_ne n
    · rw [natDigits_ge (le_of_not_lt h)] at hc
      rcases List.mem_append.mp hc with hc' | hc'
      · exact ih (n / 10) (Nat.div_lt_self (by omega) (by omega)) c hc'
      · simp at hc'
        rw [hc']
        exact digitChar_ne (n % 10)

theorem natDigits_ne_nil (n : Nat) : natDigits n ≠ [] := by
  by_cases h : n < 10
  · rw [natDigits_lt h]; simp
  · rw [natDigits_ge (le_of_not_lt h)]; simp

/-- First-occurrence splitting is unique. -/
theorem firstOcc_eq {u : Char} :
    ∀ (a1 a2 b1 b2 : Str), u ∉ a1 → u ∉ a2 →
      a1 ++ u :: b1 = a2 ++ u :: b2 → a1 = a2 ∧ b1 = b2 := by
  intro a1
  induction a1 with
  | nil =>
    intro a2 b1 b2 _ hu2 h
    cases a2 with
    | nil =>
      simp only [List.nil_append] at h
      exact ⟨rfl, by injection h⟩
    | cons c a2' =>
      simp only [List.nil_append, List.cons_append] at h
      have : u = c := by injection h
      exact absurd (this ▸ List.mem_cons_self c a2') hu2
  | cons c a1' ih =>
    intro a2 b1 b2 hu1 hu2 h
    cases a2 with
    | nil =>
      simp only [List.nil_append, List.cons_append] at h
      have : u = c := by injection h with h1 _; exact h1.symm
      exact absurd (this ▸ List.mem_cons_self c a1') hu1
    | cons d a2' =>
      simp only [List.cons_append] at h
      have hcd : c = d := by injection h
      have htail : a1' ++ u :: b1 = a2' ++ u :: b2 := by injection h
      have hu1' : u ∉ a1' := fun hx => hu1 (List.mem_cons_of_mem c hx)
      have hu2' : u ∉ a2' := fun hx => hu2 (List.mem_cons_of_mem d hx)
      obtain ⟨he, hb⟩ := ih a2' b1 b2 hu1' hu2' htail
      exact ⟨by rw [hcd, he], hb⟩

/-- Last-occurrence splitting is unique. -/
theorem lastOcc_eq {u : Char} (a1 a2 b1 b2 : Str) (hu1 : u ∉ b1) (hu2 : u ∉ b2)
    (h : a1 ++ u :: b1 = a2 ++ u :: b2) : a1 = a2 ∧ b1 = b2 := by
  have h' := congrArg List.reverse h
  simp only [List.reverse_append, List.reverse_cons, List.append_assoc,
    List.singleton_append] at h'
  have hu1' : u ∉ b1.reverse := by simpa using hu1
  have hu2' : u ∉ b2.reverse := by simpa using hu2
  obtain ⟨hb, ha⟩ := firstOcc_eq b1.reverse b2.reverse a1.reverse a2.reverse hu1' hu2' h'
  constructor
  · rw [← List.reverse_reverse a1, ha, List.reverse_reverse]
  · rw [← List.reverse_reverse b1, hb, List.reverse_reverse]

theorem mkPlaceholder_inj {l1 l2 : Str} {n1 n2 : Nat}
    (h : mkPlaceholder l1 n1 = mkPlaceholder l2 n2) : l1 = l2 ∧ n1 = n2 := by
  unfold mkPlaceholder at h
  simp only [List.cons_append, List.append_assoc, List.singleton_append] at h
  have h1 : l1 ++ '_' :: (natDigits n1 ++ ['>']) = l2 ++ '_' :: (natDigits n2 ++ ['>']) := by
    injection h
  have hu1 : '_' ∉ natDigits n1 ++ ['>'] := by
    intro hx
    rcases List.mem_append.mp hx with hx' | hx'
    · exact (natDigits_chars n1 '_' hx').1 rfl
    · simp at hx'
  have hu2 : '_' ∉ natDigits n2 ++ ['>'] := by
    intro hx
    rcases List.mem_append.mp hx with hx' | hx'
    · exact (natDigits_chars n2 '_' hx').1 rfl
    · simp at hx'
  obtain ⟨hl, hd⟩ := lastOcc_eq l1 l2 _ _ hu1 hu2 h1
  refine ⟨hl, natDigits_injective ?_⟩
  exact List.append_inj_left' hd rfl

/-- Placeholder strings are `shapedStr` whenever the label avoids `<` and `>`. -/
theorem mkPlaceholder_shaped {label : Str} (h1 : '<' ∉ label) (h2 : '>' ∉ label)
    (n : Nat) : shapedStr (mkPlaceholder label n) := by
  refine ⟨label ++ '_' :: natDigits n, ?_, ?_, ?_⟩
  · simp [mkPlaceholder, List.cons_append, List.append_assoc]
  · intro hx
    rcases List.mem_append.mp hx with hx' | hx'
    · exact h1 hx'
    · rcases List.mem_cons.mp hx' with hx'' | hx''
      · exact absurd hx''.symm (by decide)
      · exact (natDigits_chars n '<' hx'').2.1 rfl
  · intro hx
    rcases List.mem_append.mp hx with hx' | hx'
    · exact h2 hx'
    · rcases List.mem_cons.mp hx' with hx'' | hx''
      · exact absurd hx''.symm (by decide)
      · exact (natDigits_chars n '>' hx'').2.2 rfl

theorem shapedStr_ne_nil {p : Str} (h : shapedStr p) : p ≠ [] := by
  obtain ⟨mid, hp, _, _⟩ := h
  rw [hp]
  simp

/-! ### The substitution loop, its table and its placeholder keys -/

theorem countLabel_nil (lab : Str) : countLabel lab [] = 0 := rfl

theorem countLabel_cons (lab : Str) (s : Span) (l : List Span) :
    countLabel lab (s :: l) = (if s.label = lab then 1 else 0) + countLabel lab l := by
  by_cases h : s.label = lab <;>
    simp [countLabel, List.filter_cons, h, Nat.add_comm]

theorem pendOf_length : ∀ (fs : List Span) (counts : Str → Nat),
    (pendOf fs counts).length = fs.length := by
  intro fs
  induction fs with
  | nil => intro counts; rfl
  | cons s ss ih => intro counts; simp [pendOf, ih]

theorem sanitizeLoop_keys (text : Str) : ∀ (fs : List Span) (counts : Str → Nat) (cur : Nat),
    (sanitizeLoop text fs counts cur).2.map Prod.fst =
      (pendOf fs counts).map fun x => x.1 := by
  intro fs
  induction fs with
  | nil => intro counts cur; rfl
  | cons s ss ih => intro counts cur; simp [sanitizeLoop, pendOf, ih]

theorem sanitizeLoop_flatten (text : Str) : ∀ (fs : List Span) (counts : Str → Nat) (cur : Nat),
    (sanitizeLoop text fs counts cur).1.flatten = seg text (pendOf fs counts) cur := by
  intro fs
  induction fs with
  | nil => intro counts cur; simp [sanitizeLoop, seg]
  | cons s ss ih =>
    intro counts cur
    simp [sanitizeLoop, pendOf, seg, ih, List.append_assoc]

theorem sanitizeLoop_length (text : Str) : ∀ (fs : List Span) (counts : Str → Nat) (cur : Nat),
    (sanitizeLoop text fs counts cur).2.length = fs.length := by
  intro fs
  induction fs with
  | nil => intro counts cur; rfl
  | cons s ss ih => intro counts cur; simp [sanitizeLoop, ih]

theorem pendOf_table_mem (text : Str) : ∀ (fs : List Span) (counts : Str → Nat) (cur : Nat),
    (∀ s ∈ fs, s.content = pySlice text s.start s.stop) →
    ∀ e ∈ pendOf fs counts,
      (e.1, pySlice text e.2.1 e.2.2) ∈ (sanitizeLoop text fs counts cur).2 := by
  intro fs
  induction fs with
  | nil => intro counts cur _ e he; simp [pendOf] at he
  | cons s ss ih =>
    intro counts cur hct e he
    have hunf : (sanitizeLoop text (s :: ss) counts cur).2 =
        (mkPlaceholder s.label (counts s.label + 1), s.content) ::
          (sanitizeLoop text ss
            (fun l => if l = s.label then counts s.label + 1 else counts l) s.stop).2 := rfl
    rw [hunf]
    rcases List.mem_cons.mp he with rfl | he'
    · have hc : s.content = pySlice text s.start s.stop :=
        hct s (List.mem_cons_self s ss)
      rw [hc]
      exact List.mem_cons_self _ _
    · have hct' : ∀ x ∈ ss, x.content = pySlice text x.start x.stop :=
        fun x hx => hct x (List.mem_cons_of_mem s hx)
      exact List.mem_cons_of_mem _ (ih _ s.stop hct' e he')

theorem pendOf_keys_mem : ∀ (fs : List Span) (counts : Str → Nat) (k : Str),
    k ∈ (pendOf fs counts).map (fun x => x.1) →
    ∃ s' n, s' ∈ fs ∧ k = mkPlaceholder s'.label n ∧ counts s'.label + 1 ≤ n := by
  intro fs
  induction fs with
  | nil => intro counts k h; simp [pendOf] at h
  | cons s ss ih =>
    intro counts k h
    simp only [pendOf, List.map_cons, List.mem_cons] at h
    rcases h with rfl | h'
    · exact ⟨s, counts s.label + 1, List.mem_cons_self s ss, rfl, le_refl _⟩
    · obtain ⟨s', n, hs', hk, hn⟩ := ih _ k h'
      refine ⟨s', n, List.mem_cons_of_mem s hs', hk, ?_⟩
      by_cases hl : s'.label = s.label
      · rw [hl] at hn ⊢
        simp at hn
        omega
      · simp [hl] at hn
        exact hn

/-- All placeholders generated within one `anonymize` call are pairwise
distinct, for arbitrary label strings. -/
theorem pendOf_keys_nodup : ∀ (fs : List Span) (counts : Str → Nat),
    ((pendOf fs counts).map fun x => x.1).Nodup := by
  intro fs
  induction fs with
  | nil => intro counts; simp [pendOf]
  | cons s ss ih =>
    intro counts
    simp only [pendOf, List.map_cons]
    refine List.nodup_cons.mpr ⟨?_, ih _⟩
    intro hmem
    obtain ⟨s', n, _, hk, hn⟩ := pendOf_keys_mem ss _ _ hmem
    obtain ⟨hlab, hcnt⟩ := mkPlaceholder_inj hk
    rw [← hlab] at hn
    simp [hlab] at hn hcnt
    omega

theorem pendOf_get : ∀ (fs : List Span) (counts : Str → Nat) (j : Nat) (hj : j < fs.length),
    (pendOf fs counts).get ⟨j, by rw [pendOf_length]; exact hj⟩ =
      (mkPlaceholder (fs.get ⟨j, hj⟩).label
         (counts (fs.get ⟨j, hj⟩).label + countLabel (fs.get ⟨j, hj⟩).label (fs.take j) + 1),
       (fs.get ⟨j, hj⟩).start, (fs.get ⟨j, hj⟩).stop) := by
  intro fs
  induction fs with
  | nil => intro counts j hj; simp at hj
  | cons s ss ih =>
    intro counts j hj
    cases j with
    | zero => simp [pendOf, countLabel_nil]
    | succ j' =>
      have hj' : j' < ss.length := by simpa using hj
      have step := ih (fun l => if l = s.label then counts s.label + 1 else counts l) j' hj'
      have hget : (s :: ss).get ⟨j' + 1, hj⟩ = ss.get ⟨j', hj'⟩ := rfl
      have htake : (s :: ss).take (j' + 1) = s :: ss.take j' := rfl
      rw [show (pendOf (s :: ss) counts).get ⟨j' + 1, by rw [pendOf_length]; exact hj⟩ =
        (pendOf ss (fun l => if l = s.label then counts s.label + 1 else counts l)).get
          ⟨j', by rw [pendOf_length]; exact hj'⟩ from rfl]
      rw [step, hget, htake, countLabel_cons]
      have harith : ∀ lab : Str,
          (if lab = s.label then counts s.label + 1 else counts lab) +
              countLabel lab (List.take j' ss) + 1 =
            counts lab + ((if s.label = lab then 1 else 0) +
              countLabel lab (List.take j' ss)) + 1 := by
        intro lab
        by_cases hsl : lab = s.label
        · rw [if_pos hsl, if_pos hsl.symm, hsl]
          omega
        · rw [if_neg hsl, if_neg (fun h => hsl (Eq.symm h))]
          omega
      rw [harith]

/-! ### The descending-length key sort of `restore` -/

theorem insertKey_perm (s : Str) (l : List Str) : (insertKey s l).Perm (s :: l) := by
  induction l with
  | nil => exact List.Perm.refl _
  | cons t ts ih =>
    simp only [insertKey]
    by_cases h : s.length < t.length
    · rw [if_pos h]
      exact (ih.cons t).trans (List.Perm.swap s t ts)
    · rw [if_neg h]

theorem sortKeysDesc_perm (l : List Str) : (sortKeysDesc l).Perm l := by
  induction l with
  | nil => exact List.Perm.refl _
  | cons s ss ih => exact (insertKey_perm s (sortKeysDesc ss)).trans (ih.cons s)

theorem insertKey_sorted (s : Str) {l : List Str}
    (hl : l.Pairwise fun a b => b.length ≤ a.length) :
    (insertKey s l).Pairwise fun a b => b.length ≤ a.length := by
  induction l with
  | nil => simp [insertKey]
  | cons t ts ih =>
    simp only [insertKey]
    rcases List.pairwise_cons.mp hl with ⟨ht, hts⟩
    by_cases h : s.length < t.length
    · rw [if_pos h]
      refine List.pairwise_cons.mpr ⟨?_, ih hts⟩
      intro b hb
      rcases List.mem_cons.mp ((insertKey_perm s ts).mem_iff.mp hb) with rfl | hb'
      · omega
      · exact ht b hb'
    · rw [if_neg h]
      refine List.pairwise_cons.mpr ⟨?_, hl⟩
      intro b hb
      rcases List.mem_cons.mp hb with rfl | hb'
      · omega
      · have := ht b hb'
        omega

/-- The key list processed by `restore` is sorted by descending length. -/
theorem sortKeysDesc_sorted (l : List Str) :
    (sortKeysDesc l).Pairwise fun a b => b.length ≤ a.length := by
  induction l with
  | nil => exact List.Pairwise.nil
  | cons s ss ih => exact insertKey_sorted s ih

/-! ### Association-list (dict) lookup -/

theorem lookup_eq_of_nodup : ∀ (table : List (Str × Str)),
    (table.map Prod.fst).Nodup → ∀ {k v : Str}, (k, v) ∈ table →
      List.lookup k table = some v := by
  intro table
  induction table with
  | nil => intro _ k v hmem; simp at hmem
  | cons e es ih =>
    intro hnd k v hmem
    obtain ⟨k0, v0⟩ := e
    have hnd0 : k0 ∉ es.map Prod.fst ∧ (es.map Prod.fst).Nodup := by
      rw [List.map_cons] at hnd
      exact List.nodup_cons.mp hnd
    rcases List.mem_cons.mp hmem with heq | hmem'
    · obtain ⟨rfl, rfl⟩ : k = k0 ∧ v = v0 :=
        ⟨congrArg Prod.fst heq, congrArg Prod.snd heq⟩
      simp [List.lookup]
    · have hk : (k == k0) = false := by
        apply beq_eq_false_iff_ne.mpr
        intro hke
        exact hnd0.1 (hke ▸ List.mem_map_of_mem Prod.fst hmem')
      rw [show List.lookup k ((k0, v0) :: es) = List.lookup k es from by
        simp [List.lookup, hk]]
      exact ih hnd0.2 hmem'

/-! ### Placeholder-shaped strings and occurrence positions -/

theorem shaped_length {p : Str} (h : shapedStr p) : 2 ≤ p.length := by
  obtain ⟨mid, rfl, _, _⟩ := h
  simp

theorem shaped_head {p : Str} (h : shapedStr p) : p[0]? = some '<' := by
  obtain ⟨mid, rfl, _, _⟩ := h
  simp [List.cons_append]

theorem shaped_lt_only {p : Str} (h : shapedStr p) {j : Nat}
    (hj : p[j]? = some '<') : j = 0 := by
  obtain ⟨mid, rfl, hmid, _⟩ := h
  cases j with
  | zero => rfl
  | succ j' =>
    exfalso
    have hj' : (mid ++ ['>'])[j']? = some '<' := by simpa using hj
    rcases List.mem_append.mp (List.getElem?_mem hj') with hm | hm
    · exact hmid hm
    · simp at hm

theorem shaped_last {p : Str} (h : shapedStr p) : p[p.length - 1]? = some '>' := by
  obtain ⟨mid, rfl, _, _⟩ := h
  have hlen : (('<' :: mid) ++ ['>']).length - 1 = mid.length + 1 := by simp
  rw [hlen]
  have : (('<' :: mid) ++ ['>'])[mid.length + 1]? = (mid ++ ['>'])[mid.length]? := by
    simp [List.cons_append]
  rw [this]
  exact List.getElem?_concat_length mid '>'

theorem shaped_gt_only {p : Str} (h : shapedStr p) {j : Nat}
    (hj : p[j]? = some '>') : j = p.length - 1 := by
  obtain ⟨mid, hp, _, hmid⟩ := h
  subst hp
  cases j with
  | zero => simp [List.cons_append] at hj
  | succ j' =>
    have hj' : (mid ++ ['>'])[j']? = some '>' := by simpa using hj
    have hlen : (('<' :: mid) ++ ['>']).length - 1 = mid.length + 1 := by simp
    rw [hlen]
    rcases Nat.lt_or_ge j' mid.length with hlt | hge
    · rw [List.getElem?_append_left hlt] at hj'
      exact absurd (List.getElem?_mem hj') hmid
    · rw [List.getElem?_append_right hge] at hj'
      have hidx : j' - mid.length < 1 := by
        by_contra hcon
        push_neg at hcon
        rw [List.getElem?_eq_none (by simpa using hcon)] at hj'
        exact Option.noConfusion hj'
      omega

/-- Character of a string at a position inside an occurrence of `q`. -/
theorem occ_char {X q Y : Str} {j : Nat} (hj : j < q.length) :
    (X ++ q ++ Y)[X.length + j]? = q[j]? := by
  rw [List.append_assoc, List.getElem?_append_right (Nat.le_add_right _ _),
    Nat.add_sub_cancel_left]
  exact List.getElem?_append_left hj

/-- An occurrence of `q` lying entirely inside the left part of an append. -/
theorem append_surgery_left {A B X q Y : Str} (h : A ++ B = X ++ q ++ Y)
    (hle : X.length + q.length ≤ A.length) : occursIn q A := by
  have hXA : X.length ≤ A.length := by omega
  have h1 : A = (X ++ (q ++ Y)).take A.length := by
    rw [← List.append_assoc, ← h, List.take_left]
  rw [List.take_append_eq_append_take, List.take_of_length_le hXA] at h1
  rw [List.take_append_eq_append_take, List.take_of_length_le (by omega)] at h1
  exact ⟨X, Y.take (A.length - X.length - q.length), by
    conv_lhs => rw [h1]
    exact (List.append_assoc _ _ _).symm⟩

/-- An occurrence of `q` lying entirely inside the right part of an append. -/
theorem append_surgery_right {A B X q Y : Str} (h : A ++ B = X ++ q ++ Y)
    (hge : A.length ≤ X.length) : ∃ Xr, X = A ++ Xr ∧ B = Xr ++ q ++ Y := by
  have hX : X.take A.length = A := by
    have h1 := congrArg (List.take A.length) h
    rw [List.take_left' rfl] at h1
    rw [List.append_assoc, List.take_append_eq_append_take,
      Nat.sub_eq_zero_of_le hge, List.take_zero, List.append_nil] at h1
    exact h1.symm
  refine ⟨X.drop A.length, ?_, ?_⟩
  · conv_lhs => rw [← List.take_append_drop A.length X]
    rw [hX]
  · have h2 := congrArg (List.drop A.length) h
    rw [List.drop_left' rfl] at h2
    rw [List.append_assoc, List.drop_append_eq_append_drop,
      Nat.sub_eq_zero_of_le hge, List.drop_zero, ← List.append_assoc] at h2
    exact h2

/-- Where can `q` occur in `G ++ p ++ T`, when `G` is a piece of the original
text, `q` never occurs in the text, and `p`, `q` are placeholder-shaped with
`p` no longer than `q`?  Either strictly after `p`, or aligned with `p` and
then necessarily equal to it (an occurrence inside `G`, or straddling `G`/`p`
or starting inside `p`, is impossible). -/
theorem occ_step {text G p T q X Y : Str}
    (hG : ∃ a b, text = a ++ G ++ b)
    (hqtext : ¬ occursIn q text)
    (hsq : shapedStr q) (hsp : shapedStr p)
    (hlen : p.length ≤ q.length)
    (h : G ++ p ++ T = X ++ q ++ Y) :
    G.length + p.length ≤ X.length ∨ (X.length = G.length ∧ q = p) := by
  have hplen := shaped_length hsp
  have hqlen := shaped_length hsq
  rcases Nat.lt_or_ge X.length G.length with hXG | hXG
  · exfalso
    rcases le_or_lt (X.length + q.length) G.length with hin | hover
    · have h' : G ++ (p ++ T) = X ++ q ++ Y := by
        rw [← List.append_assoc]
        exact h
      exact hqtext (occursIn_of_sub (append_surgery_left h' hin) hG)
    · have hchar1 : (X ++ q ++ Y)[G.length]? = q[G.length - X.length]? := by
        have hc := occ_char (X := X) (q := q) (Y := Y)
          (j := G.length - X.length) (by omega)
        rw [show X.length + (G.length - X.length) = G.length by omega] at hc
        exact hc
      have hchar2 : (G ++ p ++ T)[G.length]? = some '<' := by
        have hc := occ_char (X := G) (q := p) (Y := T) (j := 0) (by omega)
        rw [Nat.add_zero] at hc
        rw [hc]
        exact shaped_head hsp
      rw [h, hchar1] at hchar2
      have := shaped_lt_only hsq hchar2
      omega
  · rcases Nat.lt_or_ge X.length (G.length + p.length) with hXp | hXp
    · rcases Nat.eq_or_lt_of_le hXG with heq | hlt
      · right
        refine ⟨heq.symm, ?_⟩
        have hchar1 : (G ++ p ++ T)[G.length + (p.length - 1)]? = p[p.length - 1]? :=
          occ_char (by omega)
        have hchar2 : (X ++ q ++ Y)[X.length + (p.length - 1)]? = q[p.length - 1]? :=
          occ_char (by omega)
        rw [h, show G.length + (p.length - 1) = X.length + (p.length - 1) by omega,
          hchar2] at hchar1
        have hq' : q[p.length - 1]? = some '>' := by
          rw [hchar1]
          exact shaped_last hsp
        have hidx := shaped_gt_only hsq hq'
        have hpq : p.length = q.length := by omega
        have hX : X = G := by
          have h' : X ++ (q ++ Y) = G ++ (p ++ T) := by
            rw [← List.append_assoc, ← h, List.append_assoc]
          exact List.append_inj_left h' (by omega)
        have h2 : q ++ Y = p ++ T := by
          have h' : X ++ (q ++ Y) = G ++ (p ++ T) := by
            rw [← List.append_assoc, ← h, List.append_assoc]
          rw [hX] at h'
          exact List.append_cancel_left h'
        exact List.append_inj_left h2 hpq.symm
      · exfalso
        have hchar1 : (X ++ q ++ Y)[X.length]? = some '<' := by
          have hc := occ_char (X := X) (q := q) (Y := Y) (j := 0) (by omega)
          rw [Nat.add_zero] at hc
          rw [hc]
          exact shaped_head hsq
        rw [← h] at hchar1
        have hchar2 : (G ++ p ++ T)[X.length]? = p[X.length - G.length]? := by
          have hc := occ_char (X := G) (q := p) (Y := T)
            (j := X.length - G.length) (by omega)
          rw [show G.length + (X.length - G.length) = X.length by omega] at hc
          exact hc
        rw [hchar2] at hchar1
        have := shaped_lt_only hsp hchar1
        omega
    · left
      exact hXp

/-! ### Occurrences of a key in a partially restored text -/

theorem seg_no_occ {text q : Str} (hsq : shapedStr q) (hqt : ¬ occursIn q text) :
    ∀ (pend : List (Str × Nat × Nat)) (cur : Nat),
      (∀ x ∈ pend, shapedStr x.1 ∧ x.1.length ≤ q.length ∧ x.1 ≠ q) →
      ¬ occursIn q (seg text pend cur) := by
  intro pend
  induction pend with
  | nil =>
    intro cur _ hocc
    exact hqt (occursIn_of_sub hocc (pyDrop_sub text cur))
  | cons entry rest ih =>
    intro cur hall hocc
    obtain ⟨p, s, e⟩ := entry
    obtain ⟨X, Y, hXY⟩ := hocc
    have hhd := hall (p, s, e) (List.mem_cons_self _ _)
    have hps : shapedStr p := hhd.1
    have hpl : p.length ≤ q.length := hhd.2.1
    have hseg : seg text ((p, s, e) :: rest) cur =
        pySlice text cur s ++ p ++ seg text rest e := rfl
    rw [hseg] at hXY
    rcases occ_step (pySlice_sub text cur s) hqt hsq hps hpl hXY with hin | ⟨_, hqp⟩
    · obtain ⟨Xr, _, hB⟩ := append_surgery_right hXY
        (by simp only [List.length_append]; omega)
      exact ih e (fun x hx => hall x (List.mem_cons_of_mem _ hx)) ⟨Xr, Y, hB⟩
    · exact hhd.2.2 hqp.symm

theorem seg_canonical (text : Str) (q : Str) (s e : Nat) :
    ∀ (pre post : List (Str × Nat × Nat)) (cur : Nat),
      seg text (pre ++ (q, s, e) :: post) cur =
        segSplitX text s pre cur ++ q ++ seg text post e := by
  intro pre
  induction pre with
  | nil => intro post cur; rfl
  | cons entry pre' ih =>
    intro post cur
    obtain ⟨p, s', e'⟩ := entry
    show pySlice text cur s' ++ p ++ seg text (pre' ++ (q, s, e) :: post) e' =
      (pySlice text cur s' ++ p ++ segSplitX text s pre' e') ++ q ++ seg text post e
    rw [ih]
    simp [List.append_assoc]

/-- Provided the keys are distinct, shaped, no longer than `q` and absent from
the text, the ONLY occurrence of the key `q` in the rendered alternation is
its own pending slot. -/
theorem seg_unique_occ {text q : Str} (hsq : shapedStr q) (hqt : ¬ occursIn q text) :
    ∀ (pre post : List (Str × Nat × Nat)) (s e : Nat) (cur : Nat),
      (∀ x ∈ pre ++ (q, s, e) :: post, shapedStr x.1 ∧ x.1.length ≤ q.length) →
      (((pre ++ (q, s, e) :: post).map fun x => x.1).Nodup) →
      ∀ X Y, seg text (pre ++ (q, s, e) :: post) cur = X ++ q ++ Y →
        X = segSplitX text s pre cur := by
  intro pre
  induction pre with
  | nil =>
    intro post s e cur hall hnd X Y hXY
    have hseg : seg text ([] ++ (q, s, e) :: post) cur =
        pySlice text cur s ++ q ++ seg text post e := rfl
    rw [hseg] at hXY
    rcases occ_step (pySlice_sub text cur s) hqt hsq hsq (le_refl _) hXY with hin | ⟨hXlen, _⟩
    · exfalso
      obtain ⟨Xr, _, hB⟩ := append_surgery_right hXY
        (by simp only [List.length_append]; omega)
      refine seg_no_occ hsq hqt post e ?_ ⟨Xr, Y, hB⟩
      intro x hx
      have hx' := hall x (List.mem_cons_of_mem _ hx)
      refine ⟨hx'.1, hx'.2, ?_⟩
      intro hxq
      have hnd1 : (q :: post.map (fun x => x.1)).Nodup := by
        simpa using hnd
      have hhead := (List.nodup_cons.mp hnd1).1
      exact hhead (hxq ▸ List.mem_map_of_mem (fun x : Str × Nat × Nat => x.1) hx)
    · have h' : X ++ (q ++ Y) = pySlice text cur s ++ (q ++ seg text post e) := by
        rw [← List.append_assoc, ← hXY, List.append_assoc]
      exact List.append_inj_left h' hXlen
  | cons entry pre' ih =>
    intro post s e cur hall hnd X Y hXY
    obtain ⟨p, s', e'⟩ := entry
    have hseg : seg text (((p, s', e') :: pre') ++ (q, s, e) :: post) cur =
        pySlice text cur s' ++ p ++ seg text (pre' ++ (q, s, e) :: post) e' := rfl
    rw [hseg] at hXY
    have hp := hall (p, s', e') (List.mem_cons_self _ _)
    have hps : shapedStr p := hp.1
    have hpl : p.length ≤ q.length := hp.2
    have hnd1 : (p :: (pre' ++ (q, s, e) :: post).map (fun x => x.1)).Nodup := by
      simpa using hnd
    rcases occ_step (pySlice_sub text cur s') hqt hsq hps hpl hXY with hin | ⟨_, hqp⟩
    · obtain ⟨Xr, hXeq, hB⟩ := append_surgery_right hXY
        (by simp only [List.length_append]; omega)
      have hX'' := ih post s e e'
        (fun x hx => hall x (List.mem_cons_of_mem _ hx))
        (List.nodup_cons.mp hnd1).2 Xr Y hB
      rw [hXeq, hX'']
      rfl
    · exfalso
      have hq_mem : q ∈ (pre' ++ (q, s, e) :: post).map (fun x => x.1) :=
        List.mem_map_of_mem (fun x : Str × Nat × Nat => x.1)
          (List.mem_append_right _ (List.mem_cons_self _ _))
      have hhead := (List.nodup_cons.mp hnd1).1
      apply hhead
      rw [← hqp]
      exact hq_mem

theorem posOk_mono {a b : Nat} (hab : a ≤ b) :
    ∀ l, posOk b l → posOk a l := by
  intro l
  cases l with
  | nil => intro h; trivial
  | cons entry rest =>
    obtain ⟨p, s, e⟩ := entry
    rintro ⟨h1, h2, h3⟩
    exact ⟨le_trans hab h1, h2, h3⟩

theorem posOk_remove : ∀ (pre : List (Str × Nat × Nat)) (entry : Str × Nat × Nat)
    (post : List (Str × Nat × Nat)) (cur : Nat),
    posOk cur (pre ++ entry :: post) → posOk cur (pre ++ post) := by
  intro pre
  induction pre with
  | nil =>
    intro entry post cur h
    obtain ⟨p, s, e⟩ := entry
    obtain ⟨h1, h2, h3⟩ := h
    exact posOk_mono (le_trans h1 h2) post h3
  | cons entry1 pre' ih =>
    intro entry post cur h
    obtain ⟨p1, s1, e1⟩ := entry1
    obtain ⟨h1, h2, h3⟩ := h
    exact ⟨h1, h2, ih entry post e1 h3⟩

theorem seg_remove (text : Str) (q : Str) (s e : Nat) :
    ∀ (pre post : List (Str × Nat × Nat)) (cur : Nat),
      posOk cur (pre ++ (q, s, e) :: post) →
      segSplitX text s pre cur ++ pySlice text s e ++ seg text post e =
        seg text (pre ++ post) cur := by
  intro pre
  induction pre with
  | nil =>
    intro post cur hpos
    obtain ⟨h1, h2, h3⟩ := hpos
    cases post with
    | nil =>
      show pySlice text cur s ++ pySlice text s e ++ pyDrop text e = pyDrop text cur
      rw [List.append_assoc, pySlice_append_pyDrop text h2, pySlice_append_pyDrop text h1]
    | cons entry2 rest2 =>
      obtain ⟨p2, s2, e2⟩ := entry2
      obtain ⟨h4, _, _⟩ := h3
      show pySlice text cur s ++ pySlice text s e ++
          (pySlice text e s2 ++ p2 ++ seg text rest2 e2) =
        pySlice text cur s2 ++ p2 ++ seg text rest2 e2
      rw [pySlice_concat text h1 h2]
      simp only [← List.append_assoc]
      rw [pySlice_concat text (le_trans h1 h2) h4]
  | cons entry pre' ih =>
    intro post cur hpos
    obtain ⟨p1, s1, e1⟩ := entry
    obtain ⟨h1, h2, h3⟩ := hpos
    show (pySlice text cur s1 ++ p1 ++ segSplitX text s pre' e1) ++ pySlice text s e ++
        seg text post e =
      pySlice text cur s1 ++ p1 ++ seg text (pre' ++ post) e1
    rw [← ih post e1 h3]
    simp [List.append_assoc]

/-- One `str.replace` step of `restore`: replacing the longest remaining key
by its original content merges its slot back into the surrounding text. -/
theorem replace_step {text q : Str} (hsq : shapedStr q) (hqt : ¬ occursIn q text)
    (pre post : List (Str × Nat × Nat)) (s e cur : Nat)
    (hall : ∀ x ∈ pre ++ (q, s, e) :: post, shapedStr x.1 ∧ x.1.length ≤ q.length)
    (hnd : ((pre ++ (q, s, e) :: post).map fun x => x.1).Nodup)
    (hpos : posOk cur (pre ++ (q, s, e) :: post)) :
    replacePy (seg text (pre ++ (q, s, e) :: post) cur) q (pySlice text s e) =
      seg text (pre ++ post) cur := by
  have hcan := seg_canonical text q s e pre post cur
  have huniq : ∀ X' Y',
      segSplitX text s pre cur ++ q ++ seg text post e = X' ++ q ++ Y' →
      X' = segSplitX text s pre cur := by
    intro X' Y' h
    exact seg_unique_occ hsq hqt pre post s e cur hall hnd X' Y' (by rw [hcan]; exact h)
  have hne : q ≠ [] := shapedStr_ne_nil hsq
  rw [hcan]
  have hrepl := replacePy_unique hne (pySlice text s e) (seg text post e)
    (segSplitX text s pre cur) _ (Nat.lt_succ_self _) huniq
  rw [show replacePy (segSplitX text s pre cur ++ q ++ seg text post e) q
      (pySlice text s e) =
    replaceGo ((segSplitX text s pre cur ++ q ++ seg text post e).length + 1)
      (segSplitX text s pre cur ++ q ++ seg text post e) q (pySlice text s e) from rfl]
  rw [hrepl]
  exact seg_remove text q s e pre post cur hpos

/-- The master induction of `restore` correctness: folding `str.replace` over
the remaining keys, longest first, restores exactly the original text. -/
theorem restore_fold (text : Str) (table : List (Str × Str)) :
    ∀ (ks : List Str) (pend : List (Str × Nat × Nat)) (cur : Nat),
      ks.Pairwise (fun a b => b.length ≤ a.length) →
      ks.Perm (pend.map fun x => x.1) →
      ((pend.map fun x => x.1).Nodup) →
      (∀ x ∈ pend, shapedStr x.1 ∧ ¬ occursIn x.1 text ∧
        List.lookup x.1 table = some (pySlice text x.2.1 x.2.2)) →
      posOk cur pend →
      ks.foldl (fun acc ph => replacePy acc ph ((List.lookup ph table).getD []))
        (seg text pend cur) = pyDrop text cur := by
  intro ks
  induction ks with
  | nil =>
    intro pend cur _ hperm _ _ _
    have hmap : pend.map (fun x => x.1) = [] := (hperm.symm).eq_nil
    have hpend : pend = [] := List.map_eq_nil_iff.mp hmap
    subst hpend
    rfl
  | cons qk ks' ih =>
    intro pend cur hsorted hperm hnd hprops hpos
    have hq_mem : qk ∈ pend.map (fun x => x.1) :=
      hperm.mem_iff.mp (List.mem_cons_self _ _)
    obtain ⟨⟨xk, xs, xe⟩, hx_mem, hx1⟩ := List.mem_map.mp hq_mem
    have hxk : qk = xk := hx1.symm
    subst hxk
    obtain ⟨pre, post, hsplit⟩ := List.append_of_mem hx_mem
    rw [hsplit] at hperm hnd hpos ⊢
    have hx_mem' : (qk, xs, xe) ∈ pre ++ (qk, xs, xe) :: post :=
      List.mem_append_right _ (List.mem_cons_self _ _)
    have hprops' : ∀ x ∈ pre ++ (qk, xs, xe) :: post, shapedStr x.1 ∧
        ¬ occursIn x.1 text ∧
        List.lookup x.1 table = some (pySlice text x.2.1 x.2.2) := by
      intro x hx
      exact hprops x (hsplit ▸ hx)
    have hlookup : List.lookup qk table = some (pySlice text xs xe) :=
      (hprops' _ hx_mem').2.2
    simp only [List.foldl_cons]
    rw [hlookup]
    simp only [Option.getD_some]
    have hsq : shapedStr qk := (hprops' _ hx_mem').1
    have hqt : ¬ occursIn qk text := (hprops' _ hx_mem').2.1
    have hall : ∀ x ∈ pre ++ (qk, xs, xe) :: post,
        shapedStr x.1 ∧ x.1.length ≤ qk.length := by
      intro y hy
      refine ⟨(hprops' y hy).1, ?_⟩
      have hykey : y.1 ∈ qk :: ks' :=
        hperm.symm.mem_iff.mp (List.mem_map_of_mem (fun x => x.1) hy)
      rcases List.mem_cons.mp hykey with heq | hmem'
      · rw [heq]
      · exact (List.pairwise_cons.mp hsorted).1 y.1 hmem'
    rw [replace_step hsq hqt pre post xs xe cur hall hnd hpos]
    apply ih (pre ++ post) cur hsorted.of_cons
    · have h1 : List.Perm (qk :: ks')
          (pre.map (fun x => x.1) ++ qk :: post.map (fun x => x.1)) := by
        simpa using hperm
      have h2 := h1.trans List.perm_middle
      have h3 := h2.cons_inv
      simpa using h3
    · have hsub : List.Sublist ((pre ++ post).map (fun x => x.1))
          ((pre ++ (qk, xs, xe) :: post).map (fun x => x.1)) := by
        simp only [List.map_append, List.map_cons]
        exact List.Sublist.append_left
          (List.Sublist.cons _ (List.Sublist.refl _)) _
      exact List.Nodup.sublist hsub hnd
    · intro y hy
      rcases List.mem_append.mp hy with hy' | hy'
      · exact hprops' y (List.mem_append_left _ hy')
      · exact hprops' y (List.mem_append_right _ (List.mem_cons_of_mem _ hy'))
    · exact posOk_remove pre _ post cur hpos

theorem chainNat_of_chainR : ∀ (l : List Span) (le : Int) (cur : Nat),
    chainR le l → ((cur : Int) ≤ le ∨ cur = 0) → chainNat cur l := by
  intro l
  induction l with
  | nil => intro le cur _ _; trivial
  | cons s ss ih =>
    intro le cur hcr hcur
    obtain ⟨h1, h2⟩ := hcr
    refine ⟨?_, ih s.stop s.stop h2 (Or.inl (le_refl _))⟩
    rcases hcur with hle | rfl
    · have h3 : (cur : Int) ≤ (s.start : Int) := le_trans hle h1
      exact_mod_cast h3
    · exact Nat.zero_le _

theorem posOk_pendOf : ∀ (fs : List Span) (counts : Str → Nat) (cur : Nat),
    (∀ s ∈ fs, s.start ≤ s.stop) → chainNat cur fs →
    posOk cur (pendOf fs counts) := by
  intro fs
  induction fs with
  | nil => intro counts cur _ _; trivial
  | cons s ss ih =>
    intro counts cur hwf hch
    obtain ⟨h1, h2⟩ := hch
    exact ⟨h1, hwf s (List.mem_cons_self _ _),
      ih _ s.stop (fun x hx => hwf x (List.mem_cons_of_mem _ hx)) h2⟩

/-- C1 (amended).  Round-trip: for every text and all detector outputs whose
spans satisfy the spec's Span invariant (`start ≤ end` and `content` equal to
the text slice `text[start:end]`), whose labels avoid the placeholder
delimiter characters `<` and `>`, and for which no generated restoration-table
key occurs as a substring of the original text,
`restore(anonymize(text)[0], anonymize(text)[1]) = text`.  (The extra
provisos are forced by `C1_counterexample`: without them the claimed
universal round trip is false.) -/
theorem C1_round_trip (text : Str) (regexMatches nerMatches : List Span)
    (hwf : ∀ s ∈ regexMatches ++ nerMatches,
      s.start ≤ s.stop ∧ s.content = pySlice text s.start s.stop)
    (hlab : ∀ s ∈ regexMatches ++ nerMatches, '<' ∉ s.label ∧ '>' ∉ s.label)
    (hkeys : ∀ k ∈ (anonymize text regexMatches nerMatches).2.map Prod.fst,
      ¬ occursIn k text) :
    restore (anonymize text regexMatches nerMatches).1
      (anonymize text regexMatches nerMatches).2 = text := by
  have hfs_sub : ∀ s ∈ filtered_matches (regexMatches ++ nerMatches),
      s ∈ regexMatches ++ nerMatches := by
    intro s hs
    exact (sortSpans_perm _).mem_iff.mp ((reconcileAux_sublist _ _).subset hs)
  have hkeys_eq : (anonymize text regexMatches nerMatches).2.map Prod.fst =
      (pendOf (filtered_matches (regexMatches ++ nerMatches)) (fun _ => 0)).map
        (fun x => x.1) :=
    sanitizeLoop_keys text (filtered_matches (regexMatches ++ nerMatches)) _ 0
  have hnd : ((pendOf (filtered_matches (regexMatches ++ nerMatches))
      (fun _ => 0)).map (fun x => x.1)).Nodup :=
    pendOf_keys_nodup (filtered_matches (regexMatches ++ nerMatches)) _
  have htable_nd : ((anonymize text regexMatches nerMatches).2.map Prod.fst).Nodup := by
    rw [hkeys_eq]
    exact hnd
  have hch : chainNat 0 (filtered_matches (regexMatches ++ nerMatches)) :=
    chainNat_of_chainR _ (-1) 0 (reconcileAux_chainR _ _) (Or.inr rfl)
  have hpos : posOk 0 (pendOf (filtered_matches (regexMatches ++ nerMatches))
      (fun _ => 0)) :=
    posOk_pendOf _ _ 0 (fun s hs => (hwf s (hfs_sub s hs)).1) hch
  have hprops : ∀ x ∈ pendOf (filtered_matches (regexMatches ++ nerMatches))
      (fun _ => 0), shapedStr x.1 ∧ ¬ occursIn x.1 text ∧
      List.lookup x.1 (anonymize text regexMatches nerMatches).2 =
        some (pySlice text x.2.1 x.2.2) := by
    intro x hx
    have hxkey : x.1 ∈ (pendOf (filtered_matches (regexMatches ++ nerMatches))
        (fun _ => 0)).map (fun y => y.1) :=
      List.mem_map_of_mem _ hx
    obtain ⟨s', n, hs', hk, _⟩ := pendOf_keys_mem _ _ x.1 hxkey
    refine ⟨?_, ?_, ?_⟩
    · rw [hk]
      exact mkPlaceholder_shaped (hlab s' (hfs_sub s' hs')).1
        (hlab s' (hfs_sub s' hs')).2 n
    · refine hkeys x.1 ?_
      rw [hkeys_eq]
      exact hxkey
    · refine lookup_eq_of_nodup _ htable_nd ?_
      exact pendOf_table_mem text _ _ 0
        (fun s hs => (hwf s (hfs_sub s hs)).2) x hx
  have hsan : (anonymize text regexMatches nerMatches).1 =
      seg text (pendOf (filtered_matches (regexMatches ++ nerMatches))
        (fun _ => 0)) 0 :=
    sanitizeLoop_flatten text (filtered_matches (regexMatches ++ nerMatches)) _ 0
  unfold restore
  rw [hsan, hkeys_eq]
  rw [restore_fold text (anonymize text regexMatches nerMatches).2
    (sortKeysDesc ((pendOf (filtered_matches (regexMatches ++ nerMatches))
      (fun _ => 0)).map (fun x => x.1)))
    (pendOf (filtered_matches (regexMatches ++ nerMatches)) (fun _ => 0)) 0
    (sortKeysDesc_sorted _) (sortKeysDesc_perm _) hnd hprops hpos]
  rfl

/-! ### Supporting lemmas for the claims -/

theorem countLabel_take_lt {lab : Str} :
    ∀ (fs : List Span) (i j : Nat) (hi : i < fs.length), i < j →
      (fs.get ⟨i, hi⟩).label = lab →
      countLabel lab (fs.take i) + 1 ≤ countLabel lab (fs.take j) := by
  intro fs
  induction fs with
  | nil => intro i j hi; simp at hi
  | cons s ss ih =>
    intro i j hi hij hlab
    cases i with
    | zero =>
      cases j with
      | zero => omega
      | succ j' =>
        have hs : s.label = lab := hlab
        rw [show (s :: ss).take 0 = [] from rfl,
          show (s :: ss).take (j' + 1) = s :: ss.take j' from rfl,
          countLabel_cons, if_pos hs, countLabel_nil]
        omega
    | succ i' =>
      cases j with
      | zero => omega
      | succ j' =>
        have hi' : i' < ss.length := by simpa using hi
        have h := ih i' j' hi' (by omega) hlab
        rw [show (s :: ss).take (i' + 1) = s :: ss.take i' from rfl,
          show (s :: ss).take (j' + 1) = s :: ss.take j' from rfl,
          countLabel_cons, countLabel_cons]
        omega

theorem restore_id_aux (t : Str) (table : List (Str × Str)) :
    ∀ ks : List Str, (∀ k ∈ ks, ¬ occursIn k t) →
      ks.foldl (fun acc ph => replacePy acc ph ((List.lookup ph table).getD [])) t = t := by
  intro ks
  induction ks with
  | nil => intro _; rfl
  | cons k ks' ih =>
    intro h
    have hk := h k (List.mem_cons_self _ _)
    have hkne : k ≠ [] := by
      rintro rfl
      exact hk ⟨[], t, by simp⟩
    simp only [List.foldl_cons]
    rw [replacePy_of_not_occursIn hkne t _ hk]
    exact ih (fun x hx => h x (List.mem_cons_of_mem _ hx))

theorem detect_single (L : Str) (M : Matcher) (text : Str) :
    detect_pii_regex [(L, M)] text =
      (M text).map fun m => Span.mk m.1 m.2 L (pySlice text m.1 m.2) := by
  simp [detect_pii_regex]

theorem anonymize_key_get (text : Str) (rm nm : List Span) (j : Nat) (sp : Span)
    (hsp : (filtered_matches (rm ++ nm))[j]? = some sp) :
    ((anonymize text rm nm).2.map Prod.fst)[j]? =
      some (mkPlaceholder sp.label
        (countLabel sp.label ((filtered_matches (rm ++ nm)).take j) + 1)) := by
  have hj : j < (filtered_matches (rm ++ nm)).length := by
    by_contra h
    rw [List.getElem?_eq_none (by omega)] at hsp
    exact Option.noConfusion hsp
  have hsp' : (filtered_matches (rm ++ nm)).get ⟨j, hj⟩ = sp := by
    rw [List.getElem?_eq_getElem hj] at hsp
    injection hsp
  have hkeys : (anonymize text rm nm).2.map Prod.fst =
      (pendOf (filtered_matches (rm ++ nm)) (fun _ => 0)).map (fun x => x.1) :=
    sanitizeLoop_keys text (filtered_matches (rm ++ nm)) _ 0
  rw [hkeys]
  have hjpend : j < (pendOf (filtered_matches (rm ++ nm)) (fun _ => 0)).length := by
    rw [pendOf_length]
    exact hj
  rw [List.getElem?_map, List.getElem?_eq_getElem hjpend]
  have hget := pendOf_get (filtered_matches (rm ++ nm)) (fun _ => 0) j hj
  rw [show (pendOf (filtered_matches (rm ++ nm)) (fun _ => 0))[j] =
    (pendOf (filtered_matches (rm ++ nm)) (fun _ => 0)).get ⟨j, hjpend⟩ from rfl]
  rw [hget, hsp']
  simp

/-! ### The claims -/

/-- C1, counterexample to the claim as stated: the detector output is well
formed (its content is exactly `text[0:1]`), yet the round trip fails because
the original text already contains the string `<A_1>`, which `restore` then
also replaces.  `restore(anonymize(text)[0], anonymize(text)[1])` yields
`"x x"`, not the original `"x <A_1>"`. -/
theorem C1_counterexample :
    restore (anonymize "x <A_1>".data [⟨0, 1, "A".data, "x".data⟩] []).1
        (anonymize "x <A_1>".data [⟨0, 1, "A".data, "x".data⟩] []).2 ≠
      "x <A_1>".data := by decide

/-- Witness for `C1_round_trip` at a concrete input. -/
theorem C1_round_trip_witness :
    restore (anonymize "Contact Bob now".data [⟨8, 11, "PER".data, "Bob".data⟩] []).1
        (anonymize "Contact Bob now".data [⟨8, 11, "PER".data, "Bob".data⟩] []).2 =
      "Contact Bob now".data :=
  C1_round_trip "Contact Bob now".data [⟨8, 11, "PER".data, "Bob".data⟩] []
    (by decide) (by decide) (by decide)

/-- C2, counterexample to the claim as stated: with a zero-width detector
span, the accepted sequence contains two spans with the same start offset, so
the start offsets are not strictly increasing. -/
theorem C2_counterexample :
    ¬ (filtered_matches [⟨0, 0, "A".data, []⟩,
        ⟨0, 5, "B".data, "hello".data⟩]).Pairwise
      (fun a b => a.start < b.start) := by decide

/-- C2 (amended).  For every list of detector spans in which each span is
nonempty (`start < end`, the spec's Span invariant), the accepted span
sequence produced by reconciliation inside `anonymize` is pairwise
non-overlapping (`end[i] ≤ start[j]` for `i < j`), has strictly increasing
start offsets, and is drawn from the input multiset with no span synthesized
or truncated (it is a subpermutation of the input list). -/
theorem C2_accepted_invariants (rm nm : List Span)
    (hwf : ∀ s ∈ rm ++ nm, s.start < s.stop) :
    (filtered_matches (rm ++ nm)).Pairwise (fun a b => a.stop ≤ b.start) ∧
    (filtered_matches (rm ++ nm)).Pairwise (fun a b => a.start < b.start) ∧
    List.Subperm (filtered_matches (rm ++ nm)) (rm ++ nm) := by
  have hwfs : ∀ s ∈ sortSpans (rm ++ nm), s.start < s.stop := by
    intro s hs
    exact hwf s ((sortSpans_perm _).mem_iff.mp hs)
  have hpw := reconcileAux_pairwise (sortSpans (rm ++ nm)) hwfs (-1)
  refine ⟨hpw, ?_, ?_⟩
  · refine hpw.imp_of_mem ?_
    intro a b ha _ hab
    have hwa : a.start < a.stop := hwfs a ((reconcileAux_sublist _ _).subset ha)
    omega
  · exact ((reconcileAux_sublist _ _).subperm).trans (sortSpans_perm _).subperm

/-- Witness for `C2_accepted_invariants` at a concrete input. -/
theorem C2_accepted_invariants_witness :
    (filtered_matches ([⟨0, 2, "A".data, "ab".data⟩] ++
      [⟨1, 3, "B".data, "bc".data⟩])).Pairwise (fun a b => a.start < b.start) :=
  (C2_accepted_invariants [⟨0, 2, "A".data, "ab".data⟩]
    [⟨1, 3, "B".data, "bc".data⟩] (by decide)).2.1

/-- C3: the code does NOT implement the `MalformedSpan` rejection the spec
demands.  A span reaching past the end of the text (here `(0, 5)` on the
3-character text `"abc"`) is accepted by the reconciler and contributes both
a placeholder and a restoration-table entry; and a backwards span `(2, 1)` is
also accepted and corrupts the output: the sanitized text restores to
`"abbc"`, not `"abc"`. -/
theorem C3_malformed_span_kept :
    filtered_matches [⟨0, 5, "A".data, "abc".data⟩] =
      [⟨0, 5, "A".data, "abc".data⟩] ∧
    (anonymize "abc".data [⟨0, 5, "A".data, "abc".data⟩] []).2 =
      [("<A_1>".data, "abc".data)] ∧
    restore (anonymize "abc".data [⟨2, 1, "A".data, []⟩] []).1
        (anonymize "abc".data [⟨2, 1, "A".data, []⟩] []).2 = "abbc".data := by
  decide

/-- C4, counterexample to the claim as stated: spans `[0,5)` nested inside
`[0,10)` share their start offset; when the inner span is enumerated first,
the stable sort keeps it first and reconciliation accepts the INNER span and
rejects the outer one. -/
theorem C4_counterexample :
    (⟨0, 5, "I".data, []⟩ : Span) ∈
      filtered_matches [⟨0, 5, "I".data, []⟩, ⟨0, 10, "O".data, []⟩] ∧
    (⟨0, 10, "O".data, []⟩ : Span) ∉
      filtered_matches [⟨0, 5, "I".data, []⟩, ⟨0, 10, "O".data, []⟩] := by decide

/-- C4 (amended).  For every pair of spans where the outer strictly contains
the inner with a strictly smaller start (`outer.start < inner.start`,
`inner.start < inner.end ≤ outer.end`), reconciliation rejects the inner span
and accepts the outer one, regardless of the order in which the two spans are
enumerated.  (When the two spans share a start offset the first-enumerated
one wins instead — see `C4_counterexample`.) -/
theorem C4_nested_resolution (outer inner : Span)
    (h1 : outer.start < inner.start) (h2 : inner.start < inner.stop)
    (h3 : inner.stop ≤ outer.stop) :
    filtered_matches [outer, inner] = [outer] ∧
    filtered_matches [inner, outer] = [outer] := by
  have hsort1 : sortSpans [outer, inner] = [outer, inner] := by
    show insertSpan outer (insertSpan inner []) = _
    simp only [insertSpan]
    rw [if_neg (by omega)]
  have hsort2 : sortSpans [inner, outer] = [outer, inner] := by
    show insertSpan inner (insertSpan outer []) = _
    simp only [insertSpan]
    rw [if_pos h1]
  have hrec : reconcileAux (-1) [outer, inner] = [outer] := by
    simp only [reconcileAux]
    rw [if_pos (by omega : (-1 : Int) ≤ (outer.start : Int)),
      if_neg (by omega : ¬ ((outer.stop : Int) ≤ (inner.start : Int)))]
  exact ⟨by unfold filtered_matches; rw [hsort1, hrec],
    by unfold filtered_matches; rw [hsort2, hrec]⟩

/-- Witness for `C4_nested_resolution` at a concrete input. -/
theorem C4_nested_resolution_witness :
    filtered_matches [⟨0, 10, "O".data, []⟩, ⟨2, 5, "I".data, []⟩] =
      [⟨0, 10, "O".data, []⟩] ∧
    filtered_matches [⟨2, 5, "I".data, []⟩, ⟨0, 10, "O".data, []⟩] =
      [⟨0, 10, "O".data, []⟩] :=
  C4_nested_resolution ⟨0, 10, "O".data, []⟩ ⟨2, 5, "I".data, []⟩
    (by decide) (by decide) (by decide)

/-- C5.  The sort of `anonymize` is stable (the subsequence of spans at any
fixed start offset equals the corresponding input subsequence); consequently,
when two spans share a start offset, the earlier-enumerated (nonempty) span
wins reconciliation: the later one is never accepted.  In particular, for
spans `("A", [0,5))` and `("B", [3,8))` enumerated in that order, the
accepted set is exactly the `"A"` span. -/
theorem C5_stable_sort_tiebreak :
    (∀ (l : List Span) (k : Nat),
      (sortSpans l).filter (fun x => decide (x.start = k)) =
        l.filter (fun x => decide (x.start = k))) ∧
    (∀ (a b : Span) (l1 l2 l3 : List Span),
      a.start = b.start → a.start < a.stop → b ≠ a → b ∉ l1 →
      b ∉ reconcileAux (-1) (sortSpans (l1 ++ a :: l2 ++ b :: l3))) ∧
    filtered_matches [⟨0, 5, "A".data, []⟩, ⟨3, 8, "B".data, []⟩] =
      [⟨0, 5, "A".data, []⟩] :=
  ⟨sortSpans_filter,
   fun a b l1 l2 l3 hab hwfa hne hb1 => tie_loss_sorted hab hwfa hne l1 l2 l3 hb1,
   by decide⟩

/-- Witness for `C5_stable_sort_tiebreak` at a concrete input. -/
theorem C5_stable_sort_tiebreak_witness :
    (⟨0, 3, "B".data, []⟩ : Span) ∉ reconcileAux (-1)
      (sortSpans ([] ++ (⟨0, 5, "A".data, []⟩ : Span) :: [] ++
        (⟨0, 3, "B".data, []⟩ : Span) :: [])) :=
  C5_stable_sort_tiebreak.2.1 ⟨0, 5, "A".data, []⟩ ⟨0, 3, "B".data, []⟩ [] [] []
    (by decide) (by decide) (by decide) (by decide)

/-- C6.  `restore` processes the restoration-table keys in descending
string-length order (the processed key list is length-sorted and is a
permutation of the table's keys), so a longer placeholder key is replaced
before any shorter key that is a prefix of it; in particular
`restore("<PER_1> met <PER_10>", {"<PER_1>": "Ann", "<PER_10>": "Bob"})`
yields `"Ann met Bob"`. -/
theorem C6_restore_desc_keys :
    (∀ table : List (Str × Str),
      ((sortKeysDesc (table.map Prod.fst)).Pairwise
        fun a b => b.length ≤ a.length) ∧
      (sortKeysDesc (table.map Prod.fst)).Perm (table.map Prod.fst)) ∧
    restore "<PER_1> met <PER_10>".data
      [("<PER_1>".data, "Ann".data), ("<PER_10>".data, "Bob".data)] =
      "Ann met Bob".data :=
  ⟨fun table => ⟨sortKeysDesc_sorted _, sortKeysDesc_perm _⟩, by decide⟩

/-- C7.  In `anonymize`, the `j`-th accepted span (left-to-right text order)
receives placeholder `<LABEL_i>` where `i` is the 1-based count of its label
among the accepted spans up to and including position `j`; hence for a fixed
label the numeric suffixes increase strictly with text position. -/
theorem C7_placeholder_numbering (text : Str) (rm nm : List Span) :
    ((anonymize text rm nm).2.map Prod.fst).length =
      (filtered_matches (rm ++ nm)).length ∧
    (∀ (j : Nat) (sp : Span), (filtered_matches (rm ++ nm))[j]? = some sp →
      ((anonymize text rm nm).2.map Prod.fst)[j]? =
        some (mkPlaceholder sp.label
          (countLabel sp.label ((filtered_matches (rm ++ nm)).take j) + 1))) ∧
    (∀ (i j : Nat) (spi spj : Span), i < j →
      (filtered_matches (rm ++ nm))[i]? = some spi →
      (filtered_matches (rm ++ nm))[j]? = some spj →
      spi.label = spj.label →
      countLabel spi.label ((filtered_matches (rm ++ nm)).take i) + 1 <
        countLabel spj.label ((filtered_matches (rm ++ nm)).take j) + 1) := by
  refine ⟨?_, ?_, ?_⟩
  · rw [List.length_map]
    exact sanitizeLoop_length text _ _ 0
  · intro j sp hsp
    exact anonymize_key_get text rm nm j sp hsp
  · intro i j spi spj hij hi hj hlab
    have hilen : i < (filtered_matches (rm ++ nm)).length := by
      by_contra h
      rw [List.getElem?_eq_none (by omega)] at hi
      exact Option.noConfusion hi
    have hgi : (filtered_matches (rm ++ nm)).get ⟨i, hilen⟩ = spi := by
      rw [List.getElem?_eq_getElem hilen] at hi
      injection hi
    have h := @countLabel_take_lt spj.label (filtered_matches (rm ++ nm))
      i j hilen hij (by rw [hgi]; exact hlab)
    rw [hlab]
    omega

/-- Witness for `C7_placeholder_numbering` at a concrete input. -/
theorem C7_placeholder_numbering_witness :
    ((anonymize "Contact Bob now".data
        [⟨8, 11, "PER".data, "Bob".data⟩] []).2.map Prod.fst)[0]? =
      some (mkPlaceholder "PER".data
        (countLabel "PER".data
          ((filtered_matches ([⟨8, 11, "PER".data, "Bob".data⟩] ++ [])).take 0) + 1)) :=
  (C7_placeholder_numbering "Contact Bob now".data
    [⟨8, 11, "PER".data, "Bob".data⟩] []).2.1 0
    ⟨8, 11, "PER".data, "Bob".data⟩ (by decide)

/-- C8.  Within one `anonymize` call — for arbitrary label strings — the
generated placeholders are pairwise distinct, and the restoration table's
keys are exactly the placeholders emitted into the sanitized text, no more
and no fewer: the sanitized text decomposes as an alternation of original
text slices with precisely the table's keys, in order, as the separators. -/
theorem C8_placeholder_uniqueness (text : Str) (rm nm : List Span) :
    ((anonymize text rm nm).2.map Prod.fst).Nodup ∧
    ∃ pend : List (Str × Nat × Nat),
      pend.map (fun x => x.1) = (anonymize text rm nm).2.map Prod.fst ∧
      (anonymize text rm nm).1 = seg text pend 0 := by
  have hkeys : (anonymize text rm nm).2.map Prod.fst =
      (pendOf (filtered_matches (rm ++ nm)) (fun _ => 0)).map (fun x => x.1) :=
    sanitizeLoop_keys text (filtered_matches (rm ++ nm)) (fun _ => 0) 0
  refine ⟨?_, pendOf (filtered_matches (rm ++ nm)) (fun _ => 0), hkeys.symm, ?_⟩
  · rw [hkeys]
    exact pendOf_keys_nodup _ _
  · exact sanitizeLoop_flatten text _ _ 0

/-- C9, counterexample to the claim as stated: the table key `<B_1>` does not
occur in the text `<A_1>`, yet it is not without effect — the first
replacement introduces it, and the spec's §4.5 cascade then replaces it too,
so the result is `"x"` instead of `"<B_1>"`. -/
theorem C9_counterexample :
    ¬ occursIn "<B_1>".data "<A_1>".data ∧
    restore "<A_1>".data
      [("<A_1>".data, "<B_1>".data), ("<B_1>".data, "x".data)] = "x".data ∧
    restore "<A_1>".data [("<A_1>".data, "<B_1>".data)] = "<B_1>".data := by
  decide

/-- C9 (amended).  `restore` is a total function (the embedding never
raises); `restore(t, {}) = t` for every text `t`; and a table key that
occurs nowhere in the text has no effect PROVIDED no other table key occurs
in the text either: if no key of the table occurs as a substring of `t`,
then `restore(t, table) = t`.  (Without that proviso an earlier replacement
can introduce a key, `C9_counterexample`.) -/
theorem C9_restore_total :
    (∀ t : Str, restore t [] = t) ∧
    (∀ (t : Str) (table : List (Str × Str)),
      (∀ k ∈ table.map Prod.fst, ¬ occursIn k t) → restore t table = t) := by
  constructor
  · intro t
    rfl
  · intro t table h
    unfold restore
    apply restore_id_aux
    intro k hk
    exact h k ((sortKeysDesc_perm _).mem_iff.mp hk)

/-- Witness for `C9_restore_total` at a concrete input. -/
theorem C9_restore_total_witness :
    restore "abc".data [("x".data, "y".data)] = "abc".data :=
  C9_restore_total.2 "abc".data [("x".data, "y".data)] (by decide)

/-- C10.  The enumeration order that decides stable-sort ties is fixed by the
implementation: the regex pattern dictionary iterates EMAIL, then PHONE, then
IBAN, and regex matches precede NER matches in `all_matches`.  Consequently
an EMAIL match at a given start offset wins reconciliation over any PHONE,
IBAN or NER span starting at the same offset (any such span that is not
itself among the EMAIL-derived spans is never accepted). -/
theorem C10_email_precedence (E P I : Matcher) (N : NerModel) (text : Str)
    (s e : Nat) (o : Span)
    (hmem : (s, e) ∈ E text) (hwfe : s < e)
    (ho : o ∈ detect_pii_regex (regex_patterns E P I) text ++ detect_pii_ner N text)
    (hoe : o ∉ detect_pii_regex [(emailLabel, E)] text)
    (hos : o.start = s) :
    (detect_pii_regex (regex_patterns E P I) text =
      detect_pii_regex [(emailLabel, E)] text ++
        detect_pii_regex [(phoneLabel, P)] text ++
        detect_pii_regex [(ibanLabel, I)] text) ∧
    o ∉ filtered_matches (detect_pii_regex (regex_patterns E P I) text ++
      detect_pii_ner N text) := by
  have horder : detect_pii_regex (regex_patterns E P I) text =
      detect_pii_regex [(emailLabel, E)] text ++
        detect_pii_regex [(phoneLabel, P)] text ++
        detect_pii_regex [(ibanLabel, I)] text := by
    simp [detect_pii_regex, regex_patterns]
  refine ⟨horder, ?_⟩
  have haseg : (⟨s, e, emailLabel, pySlice text s e⟩ : Span) ∈
      detect_pii_regex [(emailLabel, E)] text := by
    rw [detect_single]
    exact List.mem_map_of_mem _ hmem
  have hR : o ∈ detect_pii_regex [(phoneLabel, P)] text ++
      detect_pii_regex [(ibanLabel, I)] text ++ detect_pii_ner N text := by
    rcases List.mem_append.mp ho with h' | h'
    · rw [horder] at h'
      rcases List.mem_append.mp h' with h'' | h''
      · rcases List.mem_append.mp h'' with h3 | h3
        · exact absurd h3 hoe
        · exact List.mem_append_left _ (List.mem_append_left _ h3)
      · exact List.mem_append_left _ (List.mem_append_right _ h'')
    · exact List.mem_append_right _ h'
  obtain ⟨p1, p2, hsplit1⟩ := List.append_of_mem haseg
  obtain ⟨r1, r2, hsplit2, hor1⟩ := mem_split_first hR
  have hLT : detect_pii_regex (regex_patterns E P I) text ++ detect_pii_ner N text =
      p1 ++ (⟨s, e, emailLabel, pySlice text s e⟩ : Span) :: (p2 ++ r1) ++ o :: r2 := by
    rw [horder, hsplit1]
    simp only [List.append_assoc, List.cons_append] at hsplit2 ⊢
    rw [hsplit2]
  unfold filtered_matches
  rw [hLT]
  refine tie_loss_sorted (a := ⟨s, e, emailLabel, pySlice text s e⟩) (b := o)
    (by rw [hos]) hwfe ?_ p1 (p2 ++ r1) r2 ?_
  · intro heq
    refine hoe ?_
    rw [heq]
    exact haseg
  · intro hp1
    refine hoe ?_
    rw [hsplit1]
    exact List.mem_append_left _ hp1

/-- Witness for `C10_email_precedence` at a concrete input. -/
theorem C10_email_precedence_witness :
    (⟨0, 1, phoneLabel, pySlice "ab".data 0 1⟩ : Span) ∉
      filtered_matches (detect_pii_regex (regex_patterns (fun _ => [(0, 2)])
        (fun _ => [(0, 1)]) (fun _ => [])) "ab".data ++
        detect_pii_ner (fun _ => []) "ab".data) :=
  (C10_email_precedence (fun _ => [(0, 2)]) (fun _ => [(0, 1)]) (fun _ => [])
    (fun _ => []) "ab".data 0 2 ⟨0, 1, phoneLabel, pySlice "ab".data 0 1⟩
    (by decide) (by decide) (by decide) (by decide) (by decide)).2

end PrivacyGuard
